import Mathlib

/-!
Verification of the storage and execution core of the BusTub-style teaching
relational database: the LRU-K replacer, the buffer pool manager, the
extendible hash table, the B+ tree index, and the executors with the
sort-limit-to-top-n optimizer rewrite.  Every definition is a shallow
embedding of the corresponding C++ function; machine integers that never
overflow on the considered inputs are modelled by Nat or Int.
-/

namespace BusTub

/-! ## LRU-K replacer (lru_k_replacer.cpp)

The replacer state mirrors `LRUKReplacer`: `mp_` is a `std::map` from frame
id to an entry holding the queue of the last up-to-k access timestamps
(front = oldest retained) and the evictable flag; it is modelled as an
association list kept sorted by frame id, matching the ascending iteration
order of `std::map`.  `std::hash` / machine arithmetic do not occur here.
-/

structure LRUKEntry where
  times : List Nat
  evictable : Bool
deriving DecidableEq, Repr

/-- The default-constructed entry produced by `mp_[frame_id]` on a missing key. -/
def LRUKEntry.default0 : LRUKEntry := ⟨[], false⟩

structure LRUKReplacer where
  mp : List (Nat × LRUKEntry)
  k : Nat
  currSize : Nat
  currentTimestamp : Nat
  replacerSize : Nat
deriving DecidableEq, Repr

/-- Lookup in `mp_` without insertion (used where the C++ reads an entry known to exist;
on a missing key it yields the default-constructed entry, as `operator[]` would). -/
def lrukMapGet (mp : List (Nat × LRUKEntry)) (f : Nat) : LRUKEntry :=
  (mp.lookup f).getD LRUKEntry.default0

/-- Insert-or-replace keeping the list sorted by frame id (the `std::map` order). -/
def lrukMapSet (mp : List (Nat × LRUKEntry)) (f : Nat) (e : LRUKEntry) :
    List (Nat × LRUKEntry) :=
  match mp with
  | [] => [(f, e)]
  | (g, x) :: rest =>
      if f < g then (f, e) :: (g, x) :: rest
      else if f = g then (f, e) :: rest
      else (g, x) :: lrukMapSet rest f e

/-- Erase a key from `mp_` (`mp_.erase(frame_id)`). -/
def lrukMapErase (mp : List (Nat × LRUKEntry)) (f : Nat) : List (Nat × LRUKEntry) :=
  mp.eraseP (fun p => p.1 == f)

/-- `LRUKReplacer::Judge(s, t)`: does frame `s` beat the current candidate `t`?
A frame with fewer than `k` recorded accesses beats a frame with `k`; among
frames of the same class the smaller front timestamp (oldest retained access)
wins. -/
def lrukJudge (r : LRUKReplacer) (s t : Nat) : Bool :=
  let es := lrukMapGet r.mp s
  let et := lrukMapGet r.mp t
  if es.times.length < r.k ∧ et.times.length = r.k then true
  else if es.times.length = r.k ∧ et.times.length < r.k then false
  else (es.times.headD 0) < (et.times.headD 0)

/-- The candidate-selection loop of `LRUKReplacer::Evict`: scan `mp_` in map
order, keeping the best evictable frame seen so far according to `Judge`. -/
def lrukEvictScan (r : LRUKReplacer) :
    List (Nat × LRUKEntry) → Option Nat → Option Nat
  | [], cand => cand
  | (f, e) :: rest, cand =>
      if e.evictable then
        match cand with
        | none => lrukEvictScan r rest (some f)
        | some c => lrukEvictScan r rest (some (if lrukJudge r f c then f else c))
      else lrukEvictScan r rest cand

/-- `LRUKReplacer::Evict`: returns the selected frame (or `none`) and the new
replacer state (the selected frame's entry erased, `curr_size_` decremented). -/
def lrukEvict (r : LRUKReplacer) : Option Nat × LRUKReplacer :=
  match lrukEvictScan r r.mp none with
  | none => (none, r)
  | some f => (some f, { r with mp := lrukMapErase r.mp f, currSize := r.currSize - 1 })

/-- `LRUKReplacer::RecordAccess`: push the next timestamp onto the frame's queue,
dropping the oldest when the queue exceeds `k`.  `none` models the thrown
exception on `frame_id > replacer_size_`. -/
def lrukRecordAccess (r : LRUKReplacer) (f : Nat) : Option LRUKReplacer :=
  if r.replacerSize < f then none
  else
    let e := lrukMapGet r.mp f
    let ts := r.currentTimestamp + 1
    let pushed := e.times ++ [ts]
    let times2 := if r.k < pushed.length then pushed.drop 1 else pushed
    some { r with currentTimestamp := ts,
                  mp := lrukMapSet r.mp f { e with times := times2 } }

/-- `LRUKReplacer::SetEvictable`: toggle the flag, adjusting `curr_size_`
(the entry is default-inserted by `mp_[frame_id]` even when the flag does not
change).  `none` models the thrown exception on `frame_id > replacer_size_`.
`curr_size_` is a `size_t` in C++; the decrement below 0 that would wrap there
is modelled by truncated Nat subtraction and is unreachable from the pool. -/
def lrukSetEvictable (r : LRUKReplacer) (f : Nat) (flag : Bool) : Option LRUKReplacer :=
  if r.replacerSize < f then none
  else
    let e := lrukMapGet r.mp f
    if e.evictable ≠ flag then
      some { r with mp := lrukMapSet r.mp f { e with evictable := flag },
                    currSize := if flag then r.currSize + 1 else r.currSize - 1 }
    else some { r with mp := lrukMapSet r.mp f e }

/-- `LRUKReplacer::Remove`: removing an untracked frame is a no-op; removing a
tracked non-evictable frame throws (`none`); otherwise the entry is erased. -/
def lrukRemove (r : LRUKReplacer) (f : Nat) : Option LRUKReplacer :=
  match r.mp.lookup f with
  | none => some r
  | some e =>
      if e.evictable then
        some { r with mp := lrukMapErase r.mp f, currSize := r.currSize - 1 }
      else none

/-! ### Spec-side reading of the LRU-K policy

`lrukSpecPrefer r f g` renders the spec's eviction order: `f` is to be evicted
rather than `g` when `f` has the larger k-distance, where the k-distance is
infinite for a frame with fewer than `k` recorded accesses and `now − t_k`
otherwise, and ties among infinite-distance frames break by earliest first
access.  For a frame with fewer than `k` accesses the queue retains all of
them, so its front is its first access; for a full queue the front is the k-th
most recent access `t_k`. -/

def lrukCount (r : LRUKReplacer) (f : Nat) : Nat :=
  (lrukMapGet r.mp f).times.length

def lrukFront (r : LRUKReplacer) (f : Nat) : Nat :=
  (lrukMapGet r.mp f).times.headD 0

/-- Infinite k-distance: fewer than `k` recorded accesses. -/
def lrukInf (r : LRUKReplacer) (f : Nat) : Prop :=
  lrukCount r f < r.k

/-- Finite k-distance `now − t_k` of a frame with a full history queue. -/
def lrukKDist (r : LRUKReplacer) (f : Nat) : Nat :=
  r.currentTimestamp - lrukFront r f

/-- The spec's eviction preference order (see the section comment). -/
def lrukSpecPrefer (r : LRUKReplacer) (f g : Nat) : Prop :=
  (lrukInf r f ∧ ¬ lrukInf r g)
  ∨ (lrukInf r f ∧ lrukInf r g ∧ lrukFront r f < lrukFront r g)
  ∨ (¬ lrukInf r f ∧ ¬ lrukInf r g ∧ lrukKDist r g < lrukKDist r f)

/-- A frame is tracked and currently evictable. -/
def lrukIsEvictable (r : LRUKReplacer) (f : Nat) : Bool :=
  match r.mp.lookup f with
  | some e => e.evictable
  | none => false

/-- Well-formedness of a replacer state, as established by `RecordAccess` under
the global mutex: distinct tracked frames, every tracked frame has between 1
and `k` retained access timestamps, all timestamps are at most the current
counter value, and the retained fronts of distinct frames differ (the counter
is strictly monotonic, so no two accesses share a timestamp). -/
def lrukWF (r : LRUKReplacer) : Prop :=
  (r.mp.map Prod.fst).Nodup ∧
  (∀ p ∈ r.mp, p.2.times ≠ [] ∧ p.2.times.length ≤ r.k ∧
    ∀ t ∈ p.2.times, t ≤ r.currentTimestamp) ∧
  (∀ p ∈ r.mp, ∀ q ∈ r.mp, p.1 ≠ q.1 → p.2.times.headD 0 ≠ q.2.times.headD 0)

/-- Lookup in an association list finds only actual members. -/
theorem mem_of_lookup_eq_some {α : Type} {mp : List (Nat × α)} {f : Nat} {e : α}
    (h : mp.lookup f = some e) : (f, e) ∈ mp := by
  induction mp with
  | nil => simp [List.lookup] at h
  | cons hd tl ih =>
      obtain ⟨a, b⟩ := hd
      by_cases hfa : f = a
      · subst hfa
        simp [List.lookup] at h
        subst h
        exact List.mem_cons_self _ _
      · have hba : (f == a) = false := beq_false_of_ne hfa
        simp [List.lookup, hba] at h
        exact List.mem_cons_of_mem _ (ih h)

/-- With pairwise-distinct keys, membership determines the lookup result. -/
theorem lookup_eq_some_of_mem {α : Type} {mp : List (Nat × α)} {f : Nat} {e : α}
    (hnd : (mp.map Prod.fst).Nodup) (h : (f, e) ∈ mp) : mp.lookup f = some e := by
  induction mp with
  | nil => simp at h
  | cons hd tl ih =>
      obtain ⟨a, b⟩ := hd
      rcases List.mem_cons.mp h with heq | hmem
      · obtain ⟨rfl, rfl⟩ := Prod.mk.injEq .. ▸ heq
        simp [List.lookup]
      · have hne : f ≠ a := by
          intro hfa
          subst hfa
          have : f ∈ tl.map Prod.fst := List.mem_map.mpr ⟨(f, e), hmem, rfl⟩
          exact (List.nodup_cons.mp hnd).1 this
        have hba : (f == a) = false := beq_false_of_ne hne
        simp only [List.lookup, hba]
        exact ih (List.nodup_cons.mp hnd).2 hmem

theorem lrukIsEvictable_lookup {r : LRUKReplacer} {f : Nat}
    (h : lrukIsEvictable r f = true) :
    ∃ e, r.mp.lookup f = some e ∧ e.evictable = true := by
  unfold lrukIsEvictable at h
  cases hl : r.mp.lookup f with
  | none => rw [hl] at h; simp at h
  | some e => rw [hl] at h; exact ⟨e, rfl, h⟩

/-- Under well-formedness, both sides of the preference order reduce to a
lexicographic comparison of (class, front), where class 0 means an infinite
k-distance and class 1 a full history queue. -/
theorem lrukSpecPrefer_iff {r : LRUKReplacer} (hWF : lrukWF r) {s t : Nat}
    {es et : LRUKEntry}
    (hs : r.mp.lookup s = some es) (ht : r.mp.lookup t = some et) :
    lrukSpecPrefer r s t ↔
      ((lrukCount r s < r.k ∧ ¬ lrukCount r t < r.k) ∨
       ((lrukCount r s < r.k ↔ lrukCount r t < r.k) ∧ lrukFront r s < lrukFront r t)) := by
  have hsm := mem_of_lookup_eq_some hs
  have htm := mem_of_lookup_eq_some ht
  have hsne : es.times ≠ [] := (hWF.2.1 _ hsm).1
  have htne : et.times ≠ [] := (hWF.2.1 _ htm).1
  have hsts : ∀ x ∈ es.times, x ≤ r.currentTimestamp := (hWF.2.1 _ hsm).2.2
  have htts : ∀ x ∈ et.times, x ≤ r.currentTimestamp := (hWF.2.1 _ htm).2.2
  have hfseq : lrukFront r s = es.times.headD 0 := by
    unfold lrukFront lrukMapGet
    rw [hs]
    rfl
  have hfteq : lrukFront r t = et.times.headD 0 := by
    unfold lrukFront lrukMapGet
    rw [ht]
    rfl
  have hsfront : lrukFront r s ≤ r.currentTimestamp := by
    rw [hfseq]
    rcases hne : es.times with _ | ⟨t0, rest⟩
    · exact absurd hne hsne
    · simp only [List.headD_cons]
      exact hsts t0 (by rw [hne]; exact List.mem_cons_self _ _)
  have htfront : lrukFront r t ≤ r.currentTimestamp := by
    rw [hfteq]
    rcases hne : et.times with _ | ⟨t0, rest⟩
    · exact absurd hne htne
    · simp only [List.headD_cons]
      exact htts t0 (by rw [hne]; exact List.mem_cons_self _ _)
  unfold lrukSpecPrefer lrukInf lrukKDist
  constructor
  · rintro (⟨h1, h2⟩ | ⟨h1, h2, h3⟩ | ⟨h1, h2, h3⟩)
    · exact Or.inl ⟨h1, h2⟩
    · exact Or.inr ⟨by constructor <;> intro <;> assumption, h3⟩
    · refine Or.inr ⟨by constructor <;> intro h <;> exact absurd h (by assumption), ?_⟩
      omega
  · rintro (⟨h1, h2⟩ | ⟨hiff, h3⟩)
    · exact Or.inl ⟨h1, h2⟩
    · by_cases hcs : lrukCount r s < r.k
      · exact Or.inr (Or.inl ⟨hcs, hiff.mp hcs, h3⟩)
      · have hct : ¬ lrukCount r t < r.k := fun h => hcs (hiff.mpr h)
        refine Or.inr (Or.inr ⟨hcs, hct, ?_⟩)
        omega

/-- Under well-formedness, `Judge` decides exactly the spec's preference order
on tracked frames. -/
theorem lrukJudge_iff {r : LRUKReplacer} (hWF : lrukWF r) {s t : Nat}
    {es et : LRUKEntry}
    (hs : r.mp.lookup s = some es) (ht : r.mp.lookup t = some et) :
    lrukJudge r s t = true ↔ lrukSpecPrefer r s t := by
  have hlens : es.times.length ≤ r.k := (hWF.2.1 _ (mem_of_lookup_eq_some hs)).2.1
  have hlent : et.times.length ≤ r.k := (hWF.2.1 _ (mem_of_lookup_eq_some ht)).2.1
  rw [lrukSpecPrefer_iff hWF hs ht]
  have hcs : lrukCount r s = es.times.length := by
    unfold lrukCount lrukMapGet
    rw [hs]
    rfl
  have hct : lrukCount r t = et.times.length := by
    unfold lrukCount lrukMapGet
    rw [ht]
    rfl
  have hfs : lrukFront r s = es.times.headD 0 := by
    unfold lrukFront lrukMapGet
    rw [hs]
    rfl
  have hft : lrukFront r t = et.times.headD 0 := by
    unfold lrukFront lrukMapGet
    rw [ht]
    rfl
  rw [hcs, hct, hfs, hft]
  unfold lrukJudge lrukMapGet
  rw [hs, ht]
  simp only [Option.getD_some]
  by_cases h1 : es.times.length < r.k ∧ et.times.length = r.k
  · rw [if_pos h1]
    constructor
    · intro _
      exact Or.inl ⟨h1.1, by omega⟩
    · intro _
      rfl
  · rw [if_neg h1]
    by_cases h2 : es.times.length = r.k ∧ et.times.length < r.k
    · rw [if_pos h2]
      constructor
      · intro hfalse
        exact absurd hfalse (by simp)
      · rintro (⟨h5, h6⟩ | ⟨h5, h6⟩) <;> (exfalso; omega)
    · rw [if_neg h2]
      simp only [decide_eq_true_eq]
      constructor
      · intro h5
        exact Or.inr ⟨by omega, h5⟩
      · rintro (⟨h5, h6⟩ | ⟨h5, h6⟩)
        · omega
        · exact h6

/-- The preference order is total on distinct tracked frames. -/
theorem lrukSpecPrefer_total {r : LRUKReplacer} (hWF : lrukWF r) {s t : Nat}
    {es et : LRUKEntry}
    (hs : r.mp.lookup s = some es) (ht : r.mp.lookup t = some et) (hne : s ≠ t) :
    lrukSpecPrefer r s t ∨ lrukSpecPrefer r t s := by
  rw [lrukSpecPrefer_iff hWF hs ht, lrukSpecPrefer_iff hWF ht hs]
  have hfront : lrukFront r s ≠ lrukFront r t := by
    have := hWF.2.2 _ (mem_of_lookup_eq_some hs) _ (mem_of_lookup_eq_some ht) hne
    unfold lrukFront lrukMapGet
    rw [hs, ht]
    exact this
  omega

/-- The preference order is transitive on tracked frames. -/
theorem lrukSpecPrefer_trans {r : LRUKReplacer} (hWF : lrukWF r) {a b c : Nat}
    {ea eb ec : LRUKEntry}
    (ha : r.mp.lookup a = some ea) (hb : r.mp.lookup b = some eb)
    (hc : r.mp.lookup c = some ec) :
    lrukSpecPrefer r a b → lrukSpecPrefer r b c → lrukSpecPrefer r a c := by
  rw [lrukSpecPrefer_iff hWF ha hb, lrukSpecPrefer_iff hWF hb hc,
    lrukSpecPrefer_iff hWF ha hc]
  omega

/-- Correctness of the candidate-selection loop: scanning a sub-association of
`mp_` starting from an evictable candidate yields `none` exactly when nothing
is evictable, and otherwise an evictable frame that the preference order
places above every other evictable frame seen. -/
theorem lrukEvictScan_spec (r : LRUKReplacer) (hWF : lrukWF r) :
    ∀ (l : List (Nat × LRUKEntry)) (cand : Option Nat),
      (∀ p ∈ l, r.mp.lookup p.1 = some p.2) →
      (∀ c, cand = some c → lrukIsEvictable r c = true) →
      ((lrukEvictScan r l cand = none ↔ cand = none ∧ ∀ p ∈ l, p.2.evictable = false) ∧
       ∀ f, lrukEvictScan r l cand = some f →
         lrukIsEvictable r f = true ∧
         (∀ p ∈ l, p.2.evictable = true → p.1 ≠ f → lrukSpecPrefer r f p.1) ∧
         (∀ c, cand = some c → c ≠ f → lrukSpecPrefer r f c)) := by
  intro l
  induction l with
  | nil =>
      intro cand hsub hcand
      constructor
      · simp [lrukEvictScan]
      · intro f hf
        simp only [lrukEvictScan] at hf
        refine ⟨hcand f hf, by simp, ?_⟩
        intro c hc hne
        rw [hf] at hc
        exact absurd (Option.some_inj.mp hc).symm hne
  | cons hd tl ih =>
      intro cand hsub hcand
      obtain ⟨g, e⟩ := hd
      have hg : r.mp.lookup g = some e := hsub (g, e) (List.mem_cons_self _ _)
      have hsub2 : ∀ p ∈ tl, r.mp.lookup p.1 = some p.2 :=
        fun p hp => hsub p (List.mem_cons_of_mem _ hp)
      by_cases hev : e.evictable = true
      · have hgev : lrukIsEvictable r g = true := by
          unfold lrukIsEvictable; rw [hg]; exact hev
        cases cand with
        | none =>
            have hrec := ih (some g) hsub2
              (fun c hc => (Option.some_inj.mp hc) ▸ hgev)
            have hstep : lrukEvictScan r ((g, e) :: tl) none = lrukEvictScan r tl (some g) := by
              simp [lrukEvictScan, hev]
            rw [hstep]
            constructor
            · rw [hrec.1]
              constructor
              · rintro ⟨h1, _⟩
                exact absurd h1 (by simp)
              · rintro ⟨_, h2⟩
                have h3 : e.evictable = false := h2 (g, e) (List.mem_cons_self _ _)
                rw [hev] at h3
                exact absurd h3 (by simp)
            · intro f hf
              obtain ⟨hfe, hbeats, hbcand⟩ := hrec.2 f hf
              refine ⟨hfe, ?_, by simp⟩
              intro p hp hpe hpne
              rcases List.mem_cons.mp hp with heq | hmem
              · have hp1 : p.1 = g := by rw [heq]
                rw [hp1] at hpne ⊢
                exact hbcand g rfl hpne
              · exact hbeats p hmem hpe hpne
        | some c =>
            obtain ⟨ec, hcl, hcev⟩ := lrukIsEvictable_lookup (hcand c rfl)
            have hnewc : lrukIsEvictable r (if lrukJudge r g c then g else c) = true := by
              by_cases hj : lrukJudge r g c
              · simp only [hj, if_true]
                exact hgev
              · simp only [hj, if_false]
                exact hcand c rfl
            have hrec := ih (some (if lrukJudge r g c then g else c)) hsub2
              (fun x hx => (Option.some_inj.mp hx) ▸ hnewc)
            have hstep : lrukEvictScan r ((g, e) :: tl) (some c) =
                lrukEvictScan r tl (some (if lrukJudge r g c then g else c)) := by
              simp [lrukEvictScan, hev]
            rw [hstep]
            constructor
            · rw [hrec.1]
              constructor
              · rintro ⟨h1, _⟩
                exact absurd h1 (by simp)
              · rintro ⟨h1, _⟩
                exact absurd h1 (by simp)
            · intro f hf
              obtain ⟨hfe, hbeats, hbcand⟩ := hrec.2 f hf
              obtain ⟨ef, hfl, hfev⟩ := lrukIsEvictable_lookup hfe
              have hbg : g ≠ f → lrukSpecPrefer r f g := by
                intro hgf
                by_cases hj : lrukJudge r g c
                · have hgg : (if lrukJudge r g c then g else c) = g := by
                    rw [if_pos hj]
                  exact hbcand g (by rw [hgg]) hgf
                · have hcc : (if lrukJudge r g c then g else c) = c := by
                    rw [if_neg hj]
                  by_cases hgc : g = c
                  · subst hgc
                    exact hbcand g (by rw [hcc]) hgf
                  · have hcg : lrukSpecPrefer r c g := by
                      rcases lrukSpecPrefer_total hWF hg hcl hgc with h | h
                      · exact absurd ((lrukJudge_iff hWF hg hcl).mpr h) hj
                      · exact h
                    by_cases hcf : c = f
                    · subst hcf
                      exact hcg
                    · exact lrukSpecPrefer_trans hWF hfl hcl hg
                        (hbcand c (by rw [hcc]) hcf) hcg
              have hbc : c ≠ f → lrukSpecPrefer r f c := by
                intro hcf
                by_cases hj : lrukJudge r g c
                · have hgg : (if lrukJudge r g c then g else c) = g := by
                    rw [if_pos hj]
                  have hgc2 : lrukSpecPrefer r g c := (lrukJudge_iff hWF hg hcl).mp hj
                  by_cases hgf : g = f
                  · subst hgf
                    exact hgc2
                  · exact lrukSpecPrefer_trans hWF hfl hg hcl
                      (hbcand g (by rw [hgg]) hgf) hgc2
                · have hcc : (if lrukJudge r g c then g else c) = c := by
                    rw [if_neg hj]
                  exact hbcand c (by rw [hcc]) hcf
              refine ⟨hfe, ?_, ?_⟩
              · intro p hp hpe hpne
                rcases List.mem_cons.mp hp with heq | hmem
                · have hp1 : p.1 = g := by rw [heq]
                  rw [hp1] at hpne ⊢
                  exact hbg hpne
                · exact hbeats p hmem hpe hpne
              · intro x hx hxf
                have hcx : c = x := Option.some_inj.mp hx
                subst hcx
                exact hbc hxf
      · have hrec := ih cand hsub2 hcand
        have hevf : e.evictable = false := by
          cases hb : e.evictable
          · rfl
          · exact absurd hb hev
        have hstep : lrukEvictScan r ((g, e) :: tl) cand = lrukEvictScan r tl cand := by
          simp [lrukEvictScan, hevf]
        rw [hstep]
        constructor
        · rw [hrec.1]
          constructor
          · rintro ⟨h1, h2⟩
            refine ⟨h1, ?_⟩
            intro p hp
            rcases List.mem_cons.mp hp with heq | hmem
            · rw [heq]
              exact hevf
            · exact h2 p hmem
          · rintro ⟨h1, h2⟩
            exact ⟨h1, fun p hp => h2 p (List.mem_cons_of_mem _ hp)⟩
        · intro f hf
          obtain ⟨hfe, hbeats, hbcand⟩ := hrec.2 f hf
          refine ⟨hfe, ?_, hbcand⟩
          intro p hp hpe hpne
          rcases List.mem_cons.mp hp with heq | hmem
          · have hpe2 : e.evictable = true := by
              rw [heq] at hpe
              exact hpe
            rw [hevf] at hpe2
            exact absurd hpe2 (by simp)
          · exact hbeats p hmem hpe hpne

/-- C8: `Evict` returns no frame exactly when no tracked frame is evictable;
otherwise it returns an evictable frame that the spec's k-distance order
(infinite distance beats finite, ties among infinite-distance frames broken by
earliest first access) places above every other evictable frame, and it erases
that frame's entry, decrementing `curr_size_`. -/
theorem lruk_evict_selects_max (r : LRUKReplacer) (hWF : lrukWF r) :
    ((lrukEvict r).1 = none ↔ ∀ p ∈ r.mp, p.2.evictable = false) ∧
    ((lrukEvict r).1 = none → (lrukEvict r).2 = r) ∧
    ∀ f, (lrukEvict r).1 = some f →
      lrukIsEvictable r f = true ∧
      (∀ p ∈ r.mp, p.2.evictable = true → p.1 ≠ f → lrukSpecPrefer r f p.1) ∧
      (lrukEvict r).2.mp = lrukMapErase r.mp f ∧
      (lrukEvict r).2.currSize = r.currSize - 1 := by
  have hsub : ∀ p ∈ r.mp, r.mp.lookup p.1 = some p.2 := by
    intro p hp
    obtain ⟨f, e⟩ := p
    exact lookup_eq_some_of_mem hWF.1 hp
  have hscan := lrukEvictScan_spec r hWF r.mp none hsub (by rintro c ⟨⟩)
  unfold lrukEvict
  cases hres : lrukEvictScan r r.mp none with
  | none =>
      refine ⟨?_, fun _ => rfl, ?_⟩
      · simp only [true_iff]
        exact ((hscan.1.mp hres)).2
      · intro f hf
        simp at hf
  | some f =>
      obtain ⟨hfe, hbeats, _⟩ := hscan.2 f hres
      refine ⟨?_, ?_, ?_⟩
      · constructor
        · intro h
          exact absurd h (by simp)
        · intro hall
          have h2 := hscan.1.mpr ⟨rfl, hall⟩
          rw [hres] at h2
          exact absurd h2 (by simp)
      · intro h
        exact absurd h (by simp)
      · intro x hx
        have hfx : f = x := Option.some_inj.mp hx
        subst hfx
        exact ⟨hfe, hbeats, rfl, rfl⟩

/-- The replacer state of testable property 6: `k = 2`, access sequence
A B A B C (frames 1, 2, 3) with all frames evictable. -/
def c8Replacer : LRUKReplacer :=
  { mp := [(1, ⟨[1, 3], true⟩), (2, ⟨[2, 4], true⟩), (3, ⟨[5], true⟩)],
    k := 2,
    currSize := 3,
    currentTimestamp := 5,
    replacerSize := 7 }

/-- C8 witness: on the A B A B C state, the theorem applies and `Evict` selects
frame 3 (the only frame with fewer than k accesses, hence infinite k-distance). -/
theorem lruk_evict_selects_max_witness :
    lrukIsEvictable c8Replacer 3 = true ∧
    (∀ p ∈ c8Replacer.mp, p.2.evictable = true → p.1 ≠ 3 →
      lrukSpecPrefer c8Replacer 3 p.1) ∧
    (lrukEvict c8Replacer).2.mp = lrukMapErase c8Replacer.mp 3 ∧
    (lrukEvict c8Replacer).2.currSize = c8Replacer.currSize - 1 :=
  (lruk_evict_selects_max c8Replacer (by unfold lrukWF; decide)).2.2 3 (by decide)

/-! ## Buffer pool manager (buffer_pool_manager_instance.cpp)

`pages_` is the frame array, `page_table_` the page-id to frame-id directory
(the repository's extendible hash table, modelled here through its finite-map
abstraction; the table itself is verified separately below), `free_list_` the
list of free frames, `disk` the write log of `DiskManager::WritePage`.
Page data is abstracted to one `Nat`. -/

structure Page where
  pageId : Int
  pinCount : Nat
  isDirty : Bool
  data : Nat
deriving DecidableEq, Repr

structure BufferPool where
  pages : List Page
  pageTable : List (Int × Nat)
  freeList : List Nat
  replacer : LRUKReplacer
  disk : List (Int × Nat)
  nextPageId : Int
deriving DecidableEq, Repr

/-- `BufferPoolManagerInstance::UnpinPgImp`.  Returns the C++ boolean result and
the updated pool; `none` models undefined behaviour (a frame index outside
`pages_`) or an escaping replacer exception, both unreachable from well-formed
pools.  Note the final `pages_[frame_id].is_dirty_ = is_dirty`: the dirty flag
is overwritten with the argument, not OR-ed. -/
def unpinPgImp (s : BufferPool) (pid : Int) (isDirty : Bool) :
    Option (Bool × BufferPool) :=
  match s.pageTable.lookup pid with
  | none => some (false, s)
  | some fid =>
      match s.pages[fid]? with
      | none => none
      | some pg =>
          if pg.pinCount = 0 then some (false, s)
          else
            let pin2 := pg.pinCount - 1
            let s1 := { s with pages := s.pages.set fid { pg with pinCount := pin2 } }
            let s2opt : Option BufferPool :=
              if pin2 = 0 then
                (lrukSetEvictable s1.replacer fid true).map
                  (fun rp => { s1 with replacer := rp })
              else some s1
            s2opt.map (fun s2 =>
              (true, { s2 with
                pages := s2.pages.set fid { pg with pinCount := pin2, isDirty := isDirty } }))

/-- `BufferPoolManagerInstance::DeletePgImp`.  A page id absent from the page
table yields `true` immediately with no state change; a pinned resident page
yields `false`; otherwise flush-if-dirty, remove from the page table and the
replacer, return the frame to the free list and reset its metadata
(`DeallocatePage` is a no-op at the disk layer). -/
def deletePgImp (s : BufferPool) (pid : Int) : Option (Bool × BufferPool) :=
  match s.pageTable.lookup pid with
  | none => some (true, s)
  | some fid =>
      match s.pages[fid]? with
      | none => none
      | some pg =>
          if 0 < pg.pinCount then some (false, s)
          else
            let s1 :=
              if pg.isDirty then
                { s with disk := (pg.pageId, pg.data) :: s.disk,
                         pages := s.pages.set fid { pg with isDirty := false } }
              else s
            (lrukRemove s1.replacer fid).map (fun rp =>
              (true, { s1 with
                pageTable := s1.pageTable.eraseP (fun e => e.1 == pid),
                replacer := rp,
                freeList := s1.freeList ++ [fid],
                pages := s1.pages.set fid ⟨-1, 0, false, 0⟩ }))

/-! ### Concrete pool states used by the buffer-pool claims -/

/-- A pool holding page 1 in frame 0, pinned once, with the dirty flag already set. -/
def c1Pool : BufferPool :=
  { pages := [⟨1, 1, true, 42⟩],
    pageTable := [(1, 0)],
    freeList := [],
    replacer := ⟨[(0, ⟨[1], false⟩)], 2, 0, 1, 1⟩,
    disk := [],
    nextPageId := 2 }

/-- An empty pool: one free frame, nothing resident. -/
def c7Pool : BufferPool :=
  { pages := [⟨-1, 0, false, 0⟩],
    pageTable := [],
    freeList := [0],
    replacer := ⟨[], 2, 0, 0, 1⟩,
    disk := [],
    nextPageId := 1 }

/-- C1 counterexample: on a resident page with `pin_count > 0` whose frame is
already dirty, `UnpinPage(page_id, false)` returns `true` but CLEARS the dirty
flag (the code executes `is_dirty_ = is_dirty`, not a sticky OR), contradicting
the claim that the flag stays `true`. -/
theorem unpin_clears_dirty_counterexample :
    (unpinPgImp c1Pool 1 false).map (fun r => (r.1, r.2.pages.map Page.isDirty))
      = some (true, [false]) ∧
    ¬ ((unpinPgImp c1Pool 1 false).map (fun r => (r.1, r.2.pages.map Page.isDirty))
      = some (true, [true])) := by
  constructor
  · decide
  · decide

/-- C1 amended: for every pool state and resident page with positive pin count,
`UnpinPage(page_id, d)` returns `true`, decrements the pin count, and sets the
frame's dirty flag to exactly the argument `d`, overwriting any previous value
(the hypothesis on `replacerSize` makes the `SetEvictable` call on reaching pin
count 0 in-range, as it always is when the replacer is sized to the pool). -/
theorem unpin_overwrites_dirty (s : BufferPool) (pid : Int) (fid : Nat) (pg : Page)
    (d : Bool)
    (hf : s.pageTable.lookup pid = some fid)
    (hp : s.pages[fid]? = some pg)
    (hpin : 0 < pg.pinCount)
    (hrep : fid ≤ s.replacer.replacerSize) :
    ∃ s2, unpinPgImp s pid d = some (true, s2) ∧
      s2.pages[fid]? = some { pg with pinCount := pg.pinCount - 1, isDirty := d } := by
  have hlt : fid < s.pages.length := by
    have := List.getElem?_eq_some.mp hp
    exact this.1
  unfold unpinPgImp
  have hpin0 : ¬ pg.pinCount = 0 := Nat.pos_iff_ne_zero.mp hpin
  simp only [hf, hp, hpin0, if_false]
  by_cases hone : pg.pinCount - 1 = 0
  · simp only [hone, if_true]
    unfold lrukSetEvictable
    have : ¬ s.replacer.replacerSize < fid := Nat.not_lt.mpr hrep
    simp only [this, if_false]
    by_cases hev : (lrukMapGet s.replacer.mp fid).evictable ≠ true
    · simp only [hev, if_true, Option.map_some, Option.map_map]
      refine ⟨_, rfl, ?_⟩
      simp [List.getElem?_set, hlt, List.length_set]
    · simp only [hev, if_false, Option.map_some, Option.map_map]
      refine ⟨_, rfl, ?_⟩
      simp [List.getElem?_set, hlt, List.length_set]
  · simp only [hone, if_false, Option.map_some]
    refine ⟨_, rfl, ?_⟩
    simp [List.getElem?_set, hlt, List.length_set]

/-- C1 witness: the amended theorem applied to the concrete dirty pinned pool. -/
theorem unpin_overwrites_dirty_witness :
    ∃ s2, unpinPgImp c1Pool 1 false = some (true, s2) ∧
      s2.pages[0]? = some { pageId := 1, pinCount := 0, isDirty := false, data := 42 } :=
  unpin_overwrites_dirty c1Pool 1 0 ⟨1, 1, true, 42⟩ false (by decide) (by decide)
    (by decide) (by decide)

/-- C7 counterexample: deleting a page id that is not resident returns `true`
(an unconditional early `return true`), not the `false` the claim asserts. -/
theorem delete_absent_counterexample :
    deletePgImp c7Pool 5 = some (true, c7Pool) ∧
    ¬ (deletePgImp c7Pool 5 = some (false, c7Pool)) := by
  constructor
  · decide
  · decide

/-- C7 amended: for every pool state, `DeletePage` on a page id absent from the
page table returns `true` and leaves the pool unchanged (an unknown page is
treated as an already-deleted no-op success, not as a `false` NotFound). -/
theorem delete_absent_returns_true (s : BufferPool) (pid : Int)
    (h : s.pageTable.lookup pid = none) :
    deletePgImp s pid = some (true, s) := by
  unfold deletePgImp
  rw [h]

/-- C7 witness: the amended theorem applied to the empty pool. -/
theorem delete_absent_returns_true_witness :
    deletePgImp c7Pool 5 = some (true, c7Pool) :=
  delete_absent_returns_true c7Pool 5 (by decide)

/-! ## Extendible hash table (extendible_hash_table.cpp)

`std::hash` is the identity on the instantiated integral key types, so the
hash of a key is the key itself, and `hash & ((1 << d) - 1)` is `% 2 ^ d`.
The `shared_ptr` bucket objects referenced by many directory slots are
modelled by an arena `buckets`; a directory slot holds a bucket index, so a
mutation of the bucket is visible through every slot that refers to it. -/

structure Bucket where
  items : List (Nat × Nat)
  depth : Nat
  cap : Nat
deriving DecidableEq, Repr

/-- Modelled from the spec: `Bucket::IsFull` lives in the class header, which
is not among the source files; per the spec a bucket holds at most
`bucket_size` pairs, so it is full when it holds exactly `size_` of them. -/
def Bucket.isFull (b : Bucket) : Bool := b.items.length == b.cap

def itemsHasKey (items : List (Nat × Nat)) (k : Nat) : Bool :=
  items.any (fun kv => kv.1 == k)

def itemsUpdateFirst (items : List (Nat × Nat)) (k v : Nat) : List (Nat × Nat) :=
  match items with
  | [] => []
  | (k0, v0) :: rest =>
      if k0 = k then (k0, v) :: rest else (k0, v0) :: itemsUpdateFirst rest k v

/-- `ExtendibleHashTable::Bucket::Insert`: overwrite the value in place when
the key already exists, fail when the bucket is full, append otherwise. -/
def bucketInsert (b : Bucket) (k v : Nat) : Bool × Bucket :=
  if itemsHasKey b.items k then (true, { b with items := itemsUpdateFirst b.items k v })
  else if b.isFull then (false, b)
  else (true, { b with items := b.items ++ [(k, v)] })

structure EHT where
  globalDepth : Nat
  bucketSize : Nat
  numBuckets : Nat
  buckets : List Bucket
  dir : List Nat
deriving DecidableEq, Repr

/-- The constructor: one empty bucket of depth 0, a one-slot directory. -/
def ehtInit (bucketSize : Nat) : EHT :=
  ⟨0, bucketSize, 1, [⟨[], 0, bucketSize⟩], [0]⟩

/-- `ExtendibleHashTable::IndexOf`: `hash(key) & ((1 << global_depth_) - 1)`. -/
def ehtIndexOf (t : EHT) (k : Nat) : Nat := k % 2 ^ t.globalDepth

def ehtGetBucket (t : EHT) (bid : Nat) : Bucket := t.buckets.getD bid ⟨[], 0, 0⟩

/-- The `pre` of `RedistributeBucket`: the low `depth - 1` bits (that is, the
old local-depth bits) of the first item's hash.  The list is nonempty at every
call site, since only a full bucket is redistributed. -/
def ehtSplitPre (bk : Bucket) : Nat := (bk.items.headD (0, 0)).1 % 2 ^ bk.depth

/-- Items whose low new-depth bits still equal `pre` stay in the bucket
(the `cur == pre` branch of the partition loop, order preserved). -/
def ehtStayItems (bk : Bucket) : List (Nat × Nat) :=
  bk.items.filter (fun kv => kv.1 % 2 ^ (bk.depth + 1) == ehtSplitPre bk)

/-- Items moved to the image bucket (the `erase`/`Insert` branch, in order). -/
def ehtMovedItems (bk : Bucket) : List (Nat × Nat) :=
  bk.items.filter (fun kv => ! (kv.1 % 2 ^ (bk.depth + 1) == ehtSplitPre bk))

/-- The freshly created image bucket of local depth `depth + 1`, filled by
`image_bucket->Insert(...)` for each moved item (the boolean result of that
`Insert` is discarded by the code). -/
def ehtImageBucket (bsize : Nat) (bk : Bucket) : Bucket :=
  (ehtMovedItems bk).foldl (fun ib kv => (bucketInsert ib kv.1 kv.2).2)
    (Bucket.mk [] (bk.depth + 1) bsize)

/-- The directory-rebinding loop of `RedistributeBucket`: every slot `i` with
`(i & ((1 << (depth-1)) - 1)) == pre && (i & ((1 << depth) - 1)) != pre` is
redirected to the image bucket.  `i0` is the index of the first slot of `l`. -/
def ehtDirRebind (pre depth imageId : Nat) : Nat → List Nat → List Nat
  | _, [] => []
  | i, b :: rest =>
      (if i % 2 ^ (depth - 1) = pre ∧ ¬ i % 2 ^ depth = pre then imageId else b) ::
        ehtDirRebind pre depth imageId (i + 1) rest

/-- `ExtendibleHashTable::RedistributeBucket` on the bucket with arena index
`bid`: increment the bucket's depth, partition its items by the new depth bit,
create the image bucket, and rebind the matching directory slots to it. -/
def ehtRedistributeBucket (t : EHT) (bid : Nat) : EHT :=
  let bk := ehtGetBucket t bid
  { t with
    numBuckets := t.numBuckets + 1,
    buckets := t.buckets.set bid { bk with items := ehtStayItems bk, depth := bk.depth + 1 }
      ++ [ehtImageBucket t.bucketSize bk],
    dir := ehtDirRebind (ehtSplitPre bk) (bk.depth + 1) t.buckets.length 0 t.dir }

inductive EHTStep where
  | done (t : EHT)
  | again (t : EHT)
deriving DecidableEq, Repr

/-- One iteration of the `while (true)` loop of `ExtendibleHashTable::Insert`:
try the target bucket; on failure either double the directory (when the local
depth has reached the global depth, incrementing `global_depth_` and making
each new slot point to the same bucket as its low-bit twin) or split the
target bucket. -/
def ehtInsertStep (t : EHT) (k v : Nat) : EHTStep :=
  if (bucketInsert (ehtGetBucket t (t.dir.getD (ehtIndexOf t k) 0)) k v).1 then
    .done { t with buckets :=
      (t.buckets.set (t.dir.getD (ehtIndexOf t k) 0)
        (bucketInsert (ehtGetBucket t (t.dir.getD (ehtIndexOf t k) 0)) k v).2) }
  else if t.globalDepth = (ehtGetBucket t (t.dir.getD (ehtIndexOf t k) 0)).depth then
    .again { t with globalDepth := t.globalDepth + 1, dir := t.dir ++ t.dir }
  else .again (ehtRedistributeBucket t (t.dir.getD (ehtIndexOf t k) 0))

/-- The retry loop of `ExtendibleHashTable::Insert`, with explicit fuel;
`none` means the fuel ran out before the insertion succeeded. -/
def ehtInsertGo : Nat → EHT → Nat → Nat → Option EHT
  | 0, _, _, _ => none
  | fuel + 1, t, k, v =>
      match ehtInsertStep t k v with
      | .done t2 => some t2
      | .again t2 => ehtInsertGo fuel t2 k v

/-! ### Correctness of `RedistributeBucket` -/

theorem bucketFoldInsert_spec (ms : List (Nat × Nat)) :
    ∀ b : Bucket, (ms.map Prod.fst).Nodup →
      (∀ kv ∈ ms, itemsHasKey b.items kv.1 = false) →
      b.items.length + ms.length ≤ b.cap →
      ms.foldl (fun ib kv => (bucketInsert ib kv.1 kv.2).2) b =
        { b with items := b.items ++ ms } := by
  induction ms with
  | nil =>
      intro b _ _ _
      simp
  | cons kv rest ih =>
      intro b hnd hnk hlen
      obtain ⟨k, v⟩ := kv
      have hk : itemsHasKey b.items k = false := hnk (k, v) (List.mem_cons_self _ _)
      have hlt : b.items.length < b.cap := by
        simp only [List.length_cons] at hlen
        omega
      have hfull : b.isFull = false := by
        unfold Bucket.isFull
        simp [Nat.ne_of_lt hlt]
      have hstep : (bucketInsert b k v).2 = { b with items := b.items ++ [(k, v)] } := by
        unfold bucketInsert
        rw [hk, hfull]
        simp
      rw [List.foldl_cons, hstep]
      have hknotin : k ∉ rest.map Prod.fst := (List.nodup_cons.mp hnd).1
      have hnk2 : ∀ kv2 ∈ rest, itemsHasKey (b.items ++ [(k, v)]) kv2.1 = false := by
        intro kv2 hm
        unfold itemsHasKey
        rw [List.any_append]
        have h1 : itemsHasKey b.items kv2.1 = false := hnk kv2 (List.mem_cons_of_mem _ hm)
        have h2 : k ≠ kv2.1 := by
          intro hkk
          exact hknotin (hkk ▸ List.mem_map.mpr ⟨kv2, hm, rfl⟩)
        unfold itemsHasKey at h1
        rw [h1]
        simp [beq_false_of_ne h2]
      have := ih { b with items := b.items ++ [(k, v)] } (List.nodup_cons.mp hnd).2 hnk2
        (by simp only [List.length_append, List.length_singleton]
            simp only [List.length_cons] at hlen
            omega)
      rw [this]
      simp

theorem ehtDirRebind_length (pre depth img : Nat) :
    ∀ (l : List Nat) (i0 : Nat), (ehtDirRebind pre depth img i0 l).length = l.length := by
  intro l
  induction l with
  | nil => intro i0; rfl
  | cons b rest ih =>
      intro i0
      simp only [ehtDirRebind, List.length_cons, ih]

theorem ehtDirRebind_getD (pre depth img : Nat) :
    ∀ (l : List Nat) (i0 j : Nat), j < l.length →
      (ehtDirRebind pre depth img i0 l).getD j 0 =
        if (i0 + j) % 2 ^ (depth - 1) = pre ∧ ¬ (i0 + j) % 2 ^ depth = pre then img
        else l.getD j 0 := by
  intro l
  induction l with
  | nil =>
      intro i0 j hj
      simp at hj
  | cons b rest ih =>
      intro i0 j hj
      cases j with
      | zero => simp [ehtDirRebind]
      | succ j2 =>
          have hj2 : j2 < rest.length := by
            simp only [List.length_cons] at hj
            omega
          have := ih (i0 + 1) j2 hj2
          simp only [ehtDirRebind, List.getD_cons_succ, this]
          have harith : i0 + 1 + j2 = i0 + (j2 + 1) := by omega
          rw [harith]

theorem mod_two_pow_succ_split (i ld : Nat) :
    i % 2 ^ (ld + 1) = i % 2 ^ ld ∨ i % 2 ^ (ld + 1) = i % 2 ^ ld + 2 ^ ld := by
  have hpos : 0 < 2 ^ ld := pow_pos (by norm_num) ld
  have h1 : i % 2 ^ (ld + 1) % 2 ^ ld = i % 2 ^ ld :=
    Nat.mod_mod_of_dvd _ (pow_dvd_pow 2 (Nat.le_succ ld))
  have h2 : i % 2 ^ (ld + 1) < 2 ^ (ld + 1) := Nat.mod_lt _ (pow_pos (by norm_num) _)
  have h3 : 2 ^ (ld + 1) = 2 ^ ld * 2 := by rw [pow_succ]
  have h4 := Nat.div_add_mod (i % 2 ^ (ld + 1)) (2 ^ ld)
  have h5 : i % 2 ^ (ld + 1) / 2 ^ ld < 2 := by
    apply Nat.div_lt_of_lt_mul
    omega
  have h6 : i % 2 ^ (ld + 1) / 2 ^ ld = 0 ∨ i % 2 ^ (ld + 1) / 2 ^ ld = 1 :=
    Nat.le_one_iff_eq_zero_or_eq_one.mp (Nat.lt_succ_iff.mp h5)
  rcases h6 with h6 | h6 <;> rw [h6] at h4 <;> omega

theorem mod_split_iff (i ld pre : Nat) (hpre : pre < 2 ^ ld) :
    (i % 2 ^ ld = pre ∧ ¬ i % 2 ^ (ld + 1) = pre) ↔ i % 2 ^ (ld + 1) = pre + 2 ^ ld := by
  have hsplit := mod_two_pow_succ_split i ld
  have hlt : i % 2 ^ ld < 2 ^ ld := Nat.mod_lt _ (pow_pos (by norm_num) ld)
  omega

theorem mod_of_mod_succ (i ld pre : Nat) (hpre : pre < 2 ^ ld)
    (h : i % 2 ^ (ld + 1) = pre) : i % 2 ^ ld = pre := by
  have h1 : i % 2 ^ (ld + 1) % 2 ^ ld = i % 2 ^ ld :=
    Nat.mod_mod_of_dvd _ (pow_dvd_pow 2 (Nat.le_succ ld))
  rw [h] at h1
  rw [← h1]
  exact Nat.mod_eq_of_lt hpre

theorem redistribute_getBucket_bid (t : EHT) (bid : Nat) (h : bid < t.buckets.length) :
    ehtGetBucket (ehtRedistributeBucket t bid) bid =
      { ehtGetBucket t bid with
          items := ehtStayItems (ehtGetBucket t bid),
          depth := (ehtGetBucket t bid).depth + 1 } := by
  show (ehtRedistributeBucket t bid).buckets.getD bid ⟨[], 0, 0⟩ = _
  have hbuckets : (ehtRedistributeBucket t bid).buckets =
      t.buckets.set bid
        { ehtGetBucket t bid with
            items := ehtStayItems (ehtGetBucket t bid),
            depth := (ehtGetBucket t bid).depth + 1 }
        ++ [ehtImageBucket t.bucketSize (ehtGetBucket t bid)] := rfl
  rw [hbuckets]
  simp only [List.getD_eq_getElem?_getD]
  rw [List.getElem?_append_left (by simpa using h), List.getElem?_set_self h]
  rfl

theorem redistribute_getBucket_image (t : EHT) (bid : Nat) :
    ehtGetBucket (ehtRedistributeBucket t bid) t.buckets.length =
      ehtImageBucket t.bucketSize (ehtGetBucket t bid) := by
  show (ehtRedistributeBucket t bid).buckets.getD t.buckets.length ⟨[], 0, 0⟩ = _
  have hbuckets : (ehtRedistributeBucket t bid).buckets =
      t.buckets.set bid
        { ehtGetBucket t bid with
            items := ehtStayItems (ehtGetBucket t bid),
            depth := (ehtGetBucket t bid).depth + 1 }
        ++ [ehtImageBucket t.bucketSize (ehtGetBucket t bid)] := rfl
  rw [hbuckets]
  simp only [List.getD_eq_getElem?_getD]
  have hlen : (t.buckets.set bid
      { ehtGetBucket t bid with
          items := ehtStayItems (ehtGetBucket t bid),
          depth := (ehtGetBucket t bid).depth + 1 }).length = t.buckets.length := by
    simp
  rw [← hlen, List.getElem?_concat_length]
  rfl

theorem redistribute_getBucket_other (t : EHT) (bid j : Nat) (hj : j < t.buckets.length)
    (hne : j ≠ bid) :
    ehtGetBucket (ehtRedistributeBucket t bid) j = ehtGetBucket t j := by
  show (ehtRedistributeBucket t bid).buckets.getD j ⟨[], 0, 0⟩ = ehtGetBucket t j
  have hbuckets : (ehtRedistributeBucket t bid).buckets =
      t.buckets.set bid
        { ehtGetBucket t bid with
            items := ehtStayItems (ehtGetBucket t bid),
            depth := (ehtGetBucket t bid).depth + 1 }
        ++ [ehtImageBucket t.bucketSize (ehtGetBucket t bid)] := rfl
  rw [hbuckets]
  unfold ehtGetBucket
  simp only [List.getD_eq_getElem?_getD]
  rw [List.getElem?_append_left (by simpa using hj), List.getElem?_set_ne (Ne.symm hne)]

/-- The image bucket really receives exactly the moved items: the partitioned
half fits its capacity, so none of the discarded `Insert` results was a
failure. -/
theorem ehtImageBucket_items (bk : Bucket) (bsize : Nat)
    (hnodup : (bk.items.map Prod.fst).Nodup)
    (hcap : bk.items.length ≤ bsize) :
    ehtImageBucket bsize bk = ⟨ehtMovedItems bk, bk.depth + 1, bsize⟩ := by
  unfold ehtImageBucket
  have hsub : List.Sublist (ehtMovedItems bk) bk.items := List.filter_sublist _
  have hnd2 : ((ehtMovedItems bk).map Prod.fst).Nodup :=
    hnodup.sublist (hsub.map Prod.fst)
  have hlen : (ehtMovedItems bk).length ≤ bk.items.length := hsub.length_le
  have := bucketFoldInsert_spec (ehtMovedItems bk) ⟨[], bk.depth + 1, bsize⟩ hnd2
    (by intro kv _; rfl)
    (by simp only [List.length_nil, Nat.zero_add]; omega)
  rw [this]
  simp

/-- C6: splitting a full bucket `B` of local depth `ld` and tag `tag` (the low
`ld` bits shared by all its items) rebinds exactly the directory slots whose
low `ld+1` bits equal the image tag `tag + 2^ld` to the image bucket, keeps
every slot whose low `ld+1` bits equal `tag` on `B`, raises both local depths
to `ld+1`, sends every item to the half whose tag matches its hash's low
`ld+1` bits, and loses no entry (the two halves permute the original items). -/
theorem eht_redistribute_split_correct
    (t : EHT) (bid : Nat) (bk : Bucket) (ld tag : Nat)
    (hbk : ehtGetBucket t bid = bk)
    (hld : bk.depth = ld)
    (hblt : bid < t.buckets.length)
    (hne : bk.items ≠ [])
    (hroute : ∀ kv ∈ bk.items, kv.1 % 2 ^ ld = tag)
    (hslots : ∀ i, i < t.dir.length → i % 2 ^ ld = tag → t.dir.getD i 0 = bid)
    (hcap : bk.items.length ≤ bk.cap)
    (hnodup : (bk.items.map Prod.fst).Nodup)
    (hcapsize : bk.cap = t.bucketSize) :
    (ehtRedistributeBucket t bid).dir.length = t.dir.length ∧
    (ehtRedistributeBucket t bid).numBuckets = t.numBuckets + 1 ∧
    (∀ i, i < t.dir.length → i % 2 ^ (ld + 1) = tag + 2 ^ ld →
      (ehtRedistributeBucket t bid).dir.getD i 0 = t.buckets.length) ∧
    (∀ i, i < t.dir.length → i % 2 ^ (ld + 1) = tag →
      (ehtRedistributeBucket t bid).dir.getD i 0 = bid) ∧
    (ehtGetBucket (ehtRedistributeBucket t bid) bid).depth = ld + 1 ∧
    (ehtGetBucket (ehtRedistributeBucket t bid) t.buckets.length).depth = ld + 1 ∧
    (∀ kv ∈ (ehtGetBucket (ehtRedistributeBucket t bid) bid).items,
      kv.1 % 2 ^ (ld + 1) = tag) ∧
    (∀ kv ∈ (ehtGetBucket (ehtRedistributeBucket t bid) t.buckets.length).items,
      kv.1 % 2 ^ (ld + 1) = tag + 2 ^ ld) ∧
    ((ehtGetBucket (ehtRedistributeBucket t bid) bid).items ++
      (ehtGetBucket (ehtRedistributeBucket t bid) t.buckets.length).items).Perm
      bk.items := by
  have htaglt : tag < 2 ^ ld := by
    rcases hitems : bk.items with _ | ⟨kv0, rest⟩
    · exact absurd hitems hne
    · have := hroute kv0 (by rw [hitems]; exact List.mem_cons_self _ _)
      rw [← this]
      exact Nat.mod_lt _ (pow_pos (by norm_num) ld)
  have hpre : ehtSplitPre bk = tag := by
    unfold ehtSplitPre
    rcases hitems : bk.items with _ | ⟨kv0, rest⟩
    · exact absurd hitems hne
    · simp only [List.headD_cons]
      rw [hld]
      exact hroute kv0 (by rw [hitems]; exact List.mem_cons_self _ _)
  have hdir : (ehtRedistributeBucket t bid).dir =
      ehtDirRebind (ehtSplitPre bk) (bk.depth + 1) t.buckets.length 0 t.dir := by
    unfold ehtRedistributeBucket
    rw [hbk]
  have hbucketbid := redistribute_getBucket_bid t bid hblt
  rw [hbk] at hbucketbid
  have hbucketimg := redistribute_getBucket_image t bid
  rw [hbk] at hbucketimg
  have himgitems : ehtImageBucket t.bucketSize bk = ⟨ehtMovedItems bk, bk.depth + 1, t.bucketSize⟩ :=
    ehtImageBucket_items bk t.bucketSize hnodup (hcapsize ▸ hcap)
  have hstay_mem : ∀ kv ∈ ehtStayItems bk, kv ∈ bk.items ∧ kv.1 % 2 ^ (ld + 1) = tag := by
    intro kv hm
    have h1 := List.mem_filter.mp hm
    refine ⟨h1.1, ?_⟩
    have h2 : kv.1 % 2 ^ (bk.depth + 1) = ehtSplitPre bk := eq_of_beq h1.2
    rw [hld, hpre] at h2
    exact h2
  have hmoved_mem : ∀ kv ∈ ehtMovedItems bk,
      kv ∈ bk.items ∧ kv.1 % 2 ^ (ld + 1) = tag + 2 ^ ld := by
    intro kv hm
    have h1 := List.mem_filter.mp hm
    refine ⟨h1.1, ?_⟩
    have h2 : (kv.1 % 2 ^ (bk.depth + 1) == ehtSplitPre bk) = false := by
      have h3 := h1.2
      simp only [Bool.not_eq_true'] at h3
      exact h3
    have h3 : ¬ kv.1 % 2 ^ (ld + 1) = tag := by
      have := ne_of_beq_false h2
      rw [hld, hpre] at this
      exact this
    exact (mod_split_iff kv.1 ld tag htaglt).mp ⟨hroute kv h1.1, h3⟩
  refine ⟨?_, rfl, ?_, ?_, ?_, ?_, ?_, ?_, ?_⟩
  · rw [hdir, ehtDirRebind_length]
  · intro i hi hmod
    rw [hdir, ehtDirRebind_getD _ _ _ t.dir 0 i hi]
    simp only [Nat.zero_add, Nat.add_sub_cancel]
    rw [hld, hpre, if_pos ((mod_split_iff i ld tag htaglt).mpr hmod)]
  · intro i hi hmod
    rw [hdir, ehtDirRebind_getD _ _ _ t.dir 0 i hi]
    simp only [Nat.zero_add, Nat.add_sub_cancel]
    rw [hld, hpre, if_neg (fun h => h.2 hmod)]
    exact hslots i hi (mod_of_mod_succ i ld tag htaglt hmod)
  · rw [hbucketbid, hld]
  · rw [hbucketimg, himgitems, hld]
  · intro kv hm
    rw [hbucketbid] at hm
    exact (hstay_mem kv hm).2
  · intro kv hm
    rw [hbucketimg, himgitems] at hm
    exact (hmoved_mem kv hm).2
  · rw [hbucketbid, hbucketimg, himgitems]
    exact List.filter_append_perm _ bk.items

/-- A table with global depth 2 whose bucket 0 (tag 0, local depth 1, full
with keys 0 and 2) is about to split. -/
def c6Table : EHT :=
  ⟨2, 2, 2, [⟨[(0, 5), (2, 6)], 1, 2⟩, ⟨[], 1, 2⟩], [0, 1, 0, 1]⟩

/-- C6 witness: the split-correctness theorem applied to the concrete table. -/
theorem eht_redistribute_split_correct_witness :
    (ehtRedistributeBucket c6Table 0).dir.length = c6Table.dir.length ∧
    (ehtRedistributeBucket c6Table 0).numBuckets = c6Table.numBuckets + 1 ∧
    (∀ i, i < c6Table.dir.length → i % 2 ^ (1 + 1) = 0 + 2 ^ 1 →
      (ehtRedistributeBucket c6Table 0).dir.getD i 0 = c6Table.buckets.length) ∧
    (∀ i, i < c6Table.dir.length → i % 2 ^ (1 + 1) = 0 →
      (ehtRedistributeBucket c6Table 0).dir.getD i 0 = 0) ∧
    (ehtGetBucket (ehtRedistributeBucket c6Table 0) 0).depth = 1 + 1 ∧
    (ehtGetBucket (ehtRedistributeBucket c6Table 0) c6Table.buckets.length).depth = 1 + 1 ∧
    (∀ kv ∈ (ehtGetBucket (ehtRedistributeBucket c6Table 0) 0).items,
      kv.1 % 2 ^ (1 + 1) = 0) ∧
    (∀ kv ∈ (ehtGetBucket (ehtRedistributeBucket c6Table 0) c6Table.buckets.length).items,
      kv.1 % 2 ^ (1 + 1) = 0 + 2 ^ 1) ∧
    ((ehtGetBucket (ehtRedistributeBucket c6Table 0) 0).items ++
      (ehtGetBucket (ehtRedistributeBucket c6Table 0) c6Table.buckets.length).items).Perm
      (Bucket.mk [(0, 5), (2, 6)] 1 2).items :=
  eht_redistribute_split_correct c6Table 0 ⟨[(0, 5), (2, 6)], 1, 2⟩ 1 0
    (by decide) rfl (by decide) (by decide) (by decide)
    (by
      intro i hi hmod
      have h4 : i < 4 := by simpa using hi
      interval_cases i <;> revert hmod <;> decide)
    (by decide) (by decide) rfl

/-! ### Termination of `Insert`

The spec's data-model invariants for a table state: positive bucket capacity,
a directory of `2^gd` slots holding valid bucket indices, every bucket's local
depth at most `gd`, every item routed consistently with every slot that can
reach it, and buckets within capacity with pairwise-distinct keys. -/

def ehtWF (t : EHT) : Prop :=
  0 < t.bucketSize ∧
  t.dir.length = 2 ^ t.globalDepth ∧
  (∀ i, i < t.dir.length → t.dir.getD i 0 < t.buckets.length) ∧
  (∀ i, i < t.dir.length → (ehtGetBucket t (t.dir.getD i 0)).depth ≤ t.globalDepth) ∧
  (∀ i, i < t.dir.length → ∀ kv ∈ (ehtGetBucket t (t.dir.getD i 0)).items,
    kv.1 % 2 ^ (ehtGetBucket t (t.dir.getD i 0)).depth =
      i % 2 ^ (ehtGetBucket t (t.dir.getD i 0)).depth) ∧
  (∀ b ∈ t.buckets, b.items.length ≤ b.cap ∧ b.cap = t.bucketSize ∧
    (b.items.map Prod.fst).Nodup)

/-- Every key stored anywhere in the arena is below `2 ^ P`. -/
def ehtKeyBound (t : EHT) (P : Nat) : Prop :=
  ∀ b ∈ t.buckets, ∀ kv ∈ b.items, kv.1 < 2 ^ P

/-- The local depth of the bucket the key `k` currently routes to. -/
def ehtTargetDepth (t : EHT) (k : Nat) : Nat :=
  (ehtGetBucket t (t.dir.getD (ehtIndexOf t k) 0)).depth

/-- Termination measure for the retry loop of `Insert`: once the target
bucket's local depth exceeds the key bound `P`, the next iteration succeeds;
otherwise each iteration either raises the target depth (a split) or unlocks a
split on the next iteration (a directory doubling). -/
def ehtMeasure (t : EHT) (k P : Nat) : Nat :=
  if P < ehtTargetDepth t k then 0
  else 2 * (P - ehtTargetDepth t k) + (if ehtTargetDepth t k = t.globalDepth then 2 else 1)

theorem getD_mem_of_lt {α : Type} {l : List α} {i : Nat} (h : i < l.length) (d : α) :
    l.getD i d ∈ l := by
  rw [List.getD_eq_getElem?_getD, List.getElem?_eq_getElem h]
  exact List.getElem_mem h

theorem getD_append_self (l : List Nat) (j : Nat) (hpos : 0 < l.length)
    (h : j < 2 * l.length) :
    (l ++ l).getD j 0 = l.getD (j % l.length) 0 := by
  simp only [List.getD_eq_getElem?_getD]
  by_cases hj : j < l.length
  · rw [List.getElem?_append_left hj, Nat.mod_eq_of_lt hj]
  · have hj2 : l.length ≤ j := Nat.le_of_not_lt hj
    rw [List.getElem?_append_right hj2]
    have hmod : j % l.length = j - l.length := by
      have : j - l.length < l.length := by omega
      conv_lhs => rw [← Nat.sub_add_cancel hj2]
      rw [Nat.add_mod_right]
      exact Nat.mod_eq_of_lt this
    rw [hmod]

theorem bucketInsert_false {b : Bucket} {k v : Nat}
    (h : (bucketInsert b k v).1 = false) :
    itemsHasKey b.items k = false ∧ b.isFull = true ∧ (bucketInsert b k v).2 = b := by
  unfold bucketInsert at h ⊢
  by_cases h1 : itemsHasKey b.items k
  · rw [if_pos h1] at h
    exact absurd h (by simp)
  · rw [if_neg h1] at h ⊢
    by_cases h2 : b.isFull
    · rw [if_pos h2] at h ⊢
      exact ⟨by simpa using h1, h2, rfl⟩
    · rw [if_neg h2] at h
      exact absurd h (by simp)

theorem bucketInsert_true_of_empty (b : Bucket) (k v : Nat) (hb : b.items = [])
    (hcap : 0 < b.cap) : (bucketInsert b k v).1 = true := by
  unfold bucketInsert itemsHasKey Bucket.isFull
  rw [hb]
  simp only [List.any_nil, Bool.false_eq_true, if_false, List.length_nil]
  have hne : ¬ ((0 == b.cap) = true) := by
    simp only [beq_iff_eq]
    omega
  rw [if_neg hne]

theorem bucketInsert_true_of_headKey (b : Bucket) (k v : Nat) (kv0 : Nat × Nat)
    (rest : List (Nat × Nat)) (hb : b.items = kv0 :: rest) (hk : kv0.1 = k) :
    (bucketInsert b k v).1 = true := by
  unfold bucketInsert itemsHasKey
  rw [hb]
  simp [List.any_cons, hk]

/-- When the target bucket's local depth exceeds the key bound, every item it
holds must be the inserted key itself, so the insertion attempt succeeds
(update in place, or append into an empty non-full bucket). -/
theorem ehtStep_done_of_deep (t : EHT) (k v P : Nat) (hWF : ehtWF t)
    (hB : ehtKeyBound t P) (hk : k < 2 ^ P) (hdeep : P < ehtTargetDepth t k) :
    ∃ t2, ehtInsertStep t k v = EHTStep.done t2 := by
  obtain ⟨hpos, hlen, hids, hdep, hroute, hcaps⟩ := hWF
  have hidx : ehtIndexOf t k < t.dir.length := by
    rw [hlen]
    exact Nat.mod_lt _ (pow_pos (by norm_num) _)
  have hblt : t.dir.getD (ehtIndexOf t k) 0 < t.buckets.length := hids _ hidx
  have hbmem : ehtGetBucket t (t.dir.getD (ehtIndexOf t k) 0) ∈ t.buckets :=
    getD_mem_of_lt hblt _
  have hcapeq := hcaps _ hbmem
  have hpow : 2 ^ P < 2 ^ ehtTargetDepth t k :=
    Nat.pow_lt_pow_right (by norm_num) hdeep
  have hinsert : (bucketInsert (ehtGetBucket t (t.dir.getD (ehtIndexOf t k) 0)) k v).1
      = true := by
    rcases hitems : (ehtGetBucket t (t.dir.getD (ehtIndexOf t k) 0)).items
      with _ | ⟨kv0, rest⟩
    · exact bucketInsert_true_of_empty _ k v hitems (by rw [hcapeq.2.1]; exact hpos)
    · have hkv0 : kv0 ∈ (ehtGetBucket t (t.dir.getD (ehtIndexOf t k) 0)).items := by
        rw [hitems]
        exact List.mem_cons_self _ _
      have hr := hroute _ hidx kv0 hkv0
      have hb := hB _ hbmem kv0 hkv0
      have hmodidx : ehtIndexOf t k % 2 ^ ehtTargetDepth t k = k % 2 ^ ehtTargetDepth t k := by
        unfold ehtIndexOf
        exact Nat.mod_mod_of_dvd k (pow_dvd_pow 2 (hdep _ hidx))
      have hkv0small : kv0.1 % 2 ^ ehtTargetDepth t k = kv0.1 :=
        Nat.mod_eq_of_lt (by omega)
      have hksmall : k % 2 ^ ehtTargetDepth t k = k :=
        Nat.mod_eq_of_lt (by omega)
      have hkeq : kv0.1 = k := by
        have h5 := hr
        unfold ehtTargetDepth at hmodidx hkv0small hksmall
        rw [hmodidx, hkv0small, hksmall] at h5
        exact h5
      exact bucketInsert_true_of_headKey _ k v kv0 rest hitems hkeq
  refine ⟨{ t with buckets :=
      (t.buckets.set (t.dir.getD (ehtIndexOf t k) 0)
        (bucketInsert (ehtGetBucket t (t.dir.getD (ehtIndexOf t k) 0)) k v).2) }, ?_⟩
  unfold ehtInsertStep
  rw [if_pos hinsert]

theorem ehtInsertStep_again (t : EHT) (k v : Nat) (t2 : EHT)
    (h : ehtInsertStep t k v = EHTStep.again t2) :
    (bucketInsert (ehtGetBucket t (t.dir.getD (ehtIndexOf t k) 0)) k v).1 = false ∧
    ((t.globalDepth = (ehtGetBucket t (t.dir.getD (ehtIndexOf t k) 0)).depth ∧
      t2 = { t with globalDepth := t.globalDepth + 1, dir := t.dir ++ t.dir }) ∨
     (¬ t.globalDepth = (ehtGetBucket t (t.dir.getD (ehtIndexOf t k) 0)).depth ∧
      t2 = ehtRedistributeBucket t (t.dir.getD (ehtIndexOf t k) 0))) := by
  unfold ehtInsertStep at h
  by_cases h1 : (bucketInsert (ehtGetBucket t (t.dir.getD (ehtIndexOf t k) 0)) k v).1 = true
  · rw [if_pos h1] at h
    exact absurd h (by simp)
  · rw [if_neg h1] at h
    refine ⟨by simpa using h1, ?_⟩
    by_cases h2 : t.globalDepth = (ehtGetBucket t (t.dir.getD (ehtIndexOf t k) 0)).depth
    · rw [if_pos h2] at h
      simp only [EHTStep.again.injEq] at h
      exact Or.inl ⟨h2, h.symm⟩
    · rw [if_neg h2] at h
      simp only [EHTStep.again.injEq] at h
      exact Or.inr ⟨h2, h.symm⟩

theorem ehtTargetDepth_le (t : EHT) (k : Nat) (hWF : ehtWF t) :
    ehtTargetDepth t k ≤ t.globalDepth := by
  obtain ⟨hpos, hlen, hids, hdep, hroute, hcaps⟩ := hWF
  have hidx : ehtIndexOf t k < t.dir.length := by
    rw [hlen]
    exact Nat.mod_lt _ (pow_pos (by norm_num) _)
  exact hdep _ hidx

theorem eht_double_WF (t : EHT) (hWF : ehtWF t) :
    ehtWF { t with globalDepth := t.globalDepth + 1, dir := t.dir ++ t.dir } := by
  obtain ⟨hpos, hlen, hids, hdep, hroute, hcaps⟩ := hWF
  have hdlen : 0 < t.dir.length := by
    rw [hlen]
    exact pow_pos (by norm_num) _
  have hmodlt : ∀ j : Nat, j % t.dir.length < t.dir.length := fun j => Nat.mod_lt _ hdlen
  have hget : ∀ j, j < (t.dir ++ t.dir).length →
      (t.dir ++ t.dir).getD j 0 = t.dir.getD (j % t.dir.length) 0 := by
    intro j hj
    apply getD_append_self _ _ hdlen
    simp only [List.length_append] at hj
    omega
  refine ⟨hpos, ?_, ?_, ?_, ?_, hcaps⟩
  · dsimp only
    simp only [List.length_append, hlen]
    rw [pow_succ]
    ring
  · intro i hi
    dsimp only at hi ⊢
    rw [hget i hi]
    exact hids _ (hmodlt i)
  · intro i hi
    dsimp only at hi ⊢
    rw [hget i hi]
    exact le_trans (hdep _ (hmodlt i)) (Nat.le_succ _)
  · intro i hi kv hkv
    dsimp only at hi hkv ⊢
    rw [hget i hi] at hkv ⊢
    have hsame : ∀ x, ehtGetBucket
        { t with globalDepth := t.globalDepth + 1, dir := t.dir ++ t.dir } x =
        ehtGetBucket t x := fun x => rfl
    rw [hsame] at hkv ⊢
    have h1 := hroute _ (hmodlt i) kv hkv
    rw [h1]
    generalize hD : (ehtGetBucket t (t.dir.getD (i % t.dir.length) 0)).depth = D
    have hDle : D ≤ t.globalDepth := by
      rw [← hD]
      exact hdep _ (hmodlt i)
    rw [hlen]
    exact Nat.mod_mod_of_dvd i (pow_dvd_pow 2 hDle)

theorem eht_double_target (t : EHT) (k : Nat) (hWF : ehtWF t) :
    ehtTargetDepth { t with globalDepth := t.globalDepth + 1, dir := t.dir ++ t.dir } k =
      ehtTargetDepth t k := by
  obtain ⟨hpos, hlen, hids, hdep, hroute, hcaps⟩ := hWF
  have hdlen : 0 < t.dir.length := by
    rw [hlen]
    exact pow_pos (by norm_num) _
  unfold ehtTargetDepth ehtIndexOf
  dsimp only
  have hk1 : k % 2 ^ (t.globalDepth + 1) < 2 * t.dir.length := by
    have h1 : k % 2 ^ (t.globalDepth + 1) < 2 ^ (t.globalDepth + 1) :=
      Nat.mod_lt _ (pow_pos (by norm_num) _)
    have h2 : 2 ^ (t.globalDepth + 1) = 2 * 2 ^ t.globalDepth := by
      rw [pow_succ]
      ring
    rw [hlen]
    omega
  rw [getD_append_self _ _ hdlen hk1]
  have h3 : (k % 2 ^ (t.globalDepth + 1)) % t.dir.length = k % 2 ^ t.globalDepth := by
    rw [hlen]
    exact Nat.mod_mod_of_dvd k (pow_dvd_pow 2 (Nat.le_succ _))
  rw [h3]
  rfl

/-- The split step, performed by the retry loop when the target bucket is full
and strictly shallower than the directory: well-formedness and the key bound
are preserved, the key's new target bucket is one level deeper, and the global
depth is unchanged. -/
theorem eht_split_preserve (t : EHT) (idx : Nat) (hWF : ehtWF t)
    (hidx : idx < t.dir.length)
    (hfull : (ehtGetBucket t (t.dir.getD idx 0)).isFull = true)
    (hlt : (ehtGetBucket t (t.dir.getD idx 0)).depth < t.globalDepth) :
    ehtWF (ehtRedistributeBucket t (t.dir.getD idx 0)) ∧
    (∀ P, ehtKeyBound t P → ehtKeyBound (ehtRedistributeBucket t (t.dir.getD idx 0)) P) ∧
    (ehtGetBucket (ehtRedistributeBucket t (t.dir.getD idx 0))
      ((ehtRedistributeBucket t (t.dir.getD idx 0)).dir.getD idx 0)).depth =
      (ehtGetBucket t (t.dir.getD idx 0)).depth + 1 ∧
    (ehtRedistributeBucket t (t.dir.getD idx 0)).globalDepth = t.globalDepth ∧
    (ehtRedistributeBucket t (t.dir.getD idx 0)).dir.length = t.dir.length := by
  obtain ⟨hpos, hlen, hids, hdep, hroute, hcaps⟩ := hWF
  have hblt : t.dir.getD idx 0 < t.buckets.length := hids _ hidx
  have hbmem : ehtGetBucket t (t.dir.getD idx 0) ∈ t.buckets := getD_mem_of_lt hblt _
  obtain ⟨hcapA, hcapB, hcapC⟩ := hcaps _ hbmem
  have hlenitems : (ehtGetBucket t (t.dir.getD idx 0)).items.length =
      (ehtGetBucket t (t.dir.getD idx 0)).cap := by
    have := hfull
    unfold Bucket.isFull at this
    exact eq_of_beq this
  have hne : (ehtGetBucket t (t.dir.getD idx 0)).items ≠ [] := by
    intro hcon
    rw [hcon] at hlenitems
    simp only [List.length_nil] at hlenitems
    rw [hcapB] at hlenitems
    omega
  have hpre_eq : ehtSplitPre (ehtGetBucket t (t.dir.getD idx 0)) =
      idx % 2 ^ (ehtGetBucket t (t.dir.getD idx 0)).depth := by
    unfold ehtSplitPre
    rcases hitems : (ehtGetBucket t (t.dir.getD idx 0)).items with _ | ⟨kv0, rest⟩
    · exact absurd hitems hne
    · simp only [List.headD_cons]
      exact hroute _ hidx kv0 (by rw [hitems]; exact List.mem_cons_self _ _)
  have hprelt : ehtSplitPre (ehtGetBucket t (t.dir.getD idx 0)) <
      2 ^ (ehtGetBucket t (t.dir.getD idx 0)).depth := by
    rw [hpre_eq]
    exact Nat.mod_lt _ (pow_pos (by norm_num) _)
  have hdir2 : (ehtRedistributeBucket t (t.dir.getD idx 0)).dir =
      ehtDirRebind (ehtSplitPre (ehtGetBucket t (t.dir.getD idx 0)))
        ((ehtGetBucket t (t.dir.getD idx 0)).depth + 1) t.buckets.length 0 t.dir := rfl
  have hdir2len : (ehtRedistributeBucket t (t.dir.getD idx 0)).dir.length = t.dir.length := by
    rw [hdir2, ehtDirRebind_length]
  have hdir2get : ∀ j, j < t.dir.length →
      (ehtRedistributeBucket t (t.dir.getD idx 0)).dir.getD j 0 =
        if j % 2 ^ (ehtGetBucket t (t.dir.getD idx 0)).depth =
            ehtSplitPre (ehtGetBucket t (t.dir.getD idx 0)) ∧
          ¬ j % 2 ^ ((ehtGetBucket t (t.dir.getD idx 0)).depth + 1) =
            ehtSplitPre (ehtGetBucket t (t.dir.getD idx 0))
        then t.buckets.length else t.dir.getD j 0 := by
    intro j hj
    rw [hdir2, ehtDirRebind_getD _ _ _ t.dir 0 j hj]
    simp only [Nat.zero_add, Nat.add_sub_cancel]
  have hbuck_bid := redistribute_getBucket_bid t (t.dir.getD idx 0) hblt
  have hbuck_img := redistribute_getBucket_image t (t.dir.getD idx 0)
  have himg_eq : ehtImageBucket t.bucketSize (ehtGetBucket t (t.dir.getD idx 0)) =
      ⟨ehtMovedItems (ehtGetBucket t (t.dir.getD idx 0)),
        (ehtGetBucket t (t.dir.getD idx 0)).depth + 1, t.bucketSize⟩ :=
    ehtImageBucket_items _ _ hcapC (by rw [← hcapB]; exact hcapA)
  have hbuck_other : ∀ j, j < t.buckets.length → j ≠ t.dir.getD idx 0 →
      ehtGetBucket (ehtRedistributeBucket t (t.dir.getD idx 0)) j = ehtGetBucket t j :=
    fun j hj hne2 => redistribute_getBucket_other t _ j hj hne2
  have hbuck2len : (ehtRedistributeBucket t (t.dir.getD idx 0)).buckets.length =
      t.buckets.length + 1 := by
    show (t.buckets.set _ _ ++ [_]).length = t.buckets.length + 1
    simp
  have hstay_mem : ∀ kv ∈ ehtStayItems (ehtGetBucket t (t.dir.getD idx 0)),
      kv ∈ (ehtGetBucket t (t.dir.getD idx 0)).items ∧
      kv.1 % 2 ^ ((ehtGetBucket t (t.dir.getD idx 0)).depth + 1) =
        ehtSplitPre (ehtGetBucket t (t.dir.getD idx 0)) := by
    intro kv hm
    have h1 := List.mem_filter.mp hm
    exact ⟨h1.1, eq_of_beq h1.2⟩
  have hmoved_mem : ∀ kv ∈ ehtMovedItems (ehtGetBucket t (t.dir.getD idx 0)),
      kv ∈ (ehtGetBucket t (t.dir.getD idx 0)).items ∧
      kv.1 % 2 ^ ((ehtGetBucket t (t.dir.getD idx 0)).depth + 1) =
        ehtSplitPre (ehtGetBucket t (t.dir.getD idx 0)) +
          2 ^ (ehtGetBucket t (t.dir.getD idx 0)).depth := by
    intro kv hm
    have h1 := List.mem_filter.mp hm
    refine ⟨h1.1, ?_⟩
    have h2 : ¬ kv.1 % 2 ^ ((ehtGetBucket t (t.dir.getD idx 0)).depth + 1) =
        ehtSplitPre (ehtGetBucket t (t.dir.getD idx 0)) := by
      have h3 := h1.2
      simp only [Bool.not_eq_true'] at h3
      exact ne_of_beq_false h3
    have h4 : kv.1 % 2 ^ (ehtGetBucket t (t.dir.getD idx 0)).depth =
        ehtSplitPre (ehtGetBucket t (t.dir.getD idx 0)) := by
      rw [hpre_eq]
      exact hroute _ hidx kv h1.1
    exact (mod_split_iff kv.1 _ _ hprelt).mp ⟨h4, h2⟩
  have hmem2 : ∀ b2 ∈ (ehtRedistributeBucket t (t.dir.getD idx 0)).buckets,
      (b2 = { ehtGetBucket t (t.dir.getD idx 0) with
          items := ehtStayItems (ehtGetBucket t (t.dir.getD idx 0)),
          depth := (ehtGetBucket t (t.dir.getD idx 0)).depth + 1 } ∨
       b2 = ehtImageBucket t.bucketSize (ehtGetBucket t (t.dir.getD idx 0)) ∨
       b2 ∈ t.buckets) := by
    intro b2 hb2
    have hb3 : b2 ∈ t.buckets.set (t.dir.getD idx 0)
        { ehtGetBucket t (t.dir.getD idx 0) with
            items := ehtStayItems (ehtGetBucket t (t.dir.getD idx 0)),
            depth := (ehtGetBucket t (t.dir.getD idx 0)).depth + 1 }
        ++ [ehtImageBucket t.bucketSize (ehtGetBucket t (t.dir.getD idx 0))] := hb2
    rcases List.mem_append.mp hb3 with h4 | h4
    · rcases List.mem_or_eq_of_mem_set h4 with h5 | h5
      · exact Or.inr (Or.inr h5)
      · exact Or.inl h5
    · simp only [List.mem_singleton] at h4
      exact Or.inr (Or.inl h4)
  refine ⟨⟨hpos, ?_, ?_, ?_, ?_, ?_⟩, ?_, ?_, rfl, hdir2len⟩
  · rw [hdir2len]
    exact hlen
  · intro i hi
    rw [hdir2len] at hi
    rw [hdir2get i hi, hbuck2len]
    by_cases hc : i % 2 ^ (ehtGetBucket t (t.dir.getD idx 0)).depth =
        ehtSplitPre (ehtGetBucket t (t.dir.getD idx 0)) ∧
      ¬ i % 2 ^ ((ehtGetBucket t (t.dir.getD idx 0)).depth + 1) =
        ehtSplitPre (ehtGetBucket t (t.dir.getD idx 0))
    · rw [if_pos hc]
      omega
    · rw [if_neg hc]
      have := hids _ hi
      omega
  · intro i hi
    rw [hdir2len] at hi
    rw [hdir2get i hi]
    by_cases hc : i % 2 ^ (ehtGetBucket t (t.dir.getD idx 0)).depth =
        ehtSplitPre (ehtGetBucket t (t.dir.getD idx 0)) ∧
      ¬ i % 2 ^ ((ehtGetBucket t (t.dir.getD idx 0)).depth + 1) =
        ehtSplitPre (ehtGetBucket t (t.dir.getD idx 0))
    · rw [if_pos hc, hbuck_img, himg_eq]
      exact hlt
    · rw [if_neg hc]
      by_cases hvb : t.dir.getD i 0 = t.dir.getD idx 0
      · rw [hvb, hbuck_bid]
        exact hlt
      · rw [hbuck_other _ (hids _ hi) hvb]
        exact hdep _ hi
  · intro i hi kv hkv
    rw [hdir2len] at hi
    rw [hdir2get i hi] at hkv ⊢
    by_cases hc : i % 2 ^ (ehtGetBucket t (t.dir.getD idx 0)).depth =
        ehtSplitPre (ehtGetBucket t (t.dir.getD idx 0)) ∧
      ¬ i % 2 ^ ((ehtGetBucket t (t.dir.getD idx 0)).depth + 1) =
        ehtSplitPre (ehtGetBucket t (t.dir.getD idx 0))
    · rw [if_pos hc] at hkv ⊢
      rw [hbuck_img, himg_eq] at hkv ⊢
      have h6 := (hmoved_mem kv hkv).2
      have h7 : i % 2 ^ ((ehtGetBucket t (t.dir.getD idx 0)).depth + 1) =
          ehtSplitPre (ehtGetBucket t (t.dir.getD idx 0)) +
            2 ^ (ehtGetBucket t (t.dir.getD idx 0)).depth :=
        (mod_split_iff i _ _ hprelt).mp hc
      rw [h6, h7]
    · rw [if_neg hc] at hkv ⊢
      by_cases hvb : t.dir.getD i 0 = t.dir.getD idx 0
      · rw [hvb, hbuck_bid] at hkv ⊢
        have h6 := (hstay_mem kv hkv).2
        have h8 : i % 2 ^ (ehtGetBucket t (t.dir.getD idx 0)).depth =
            ehtSplitPre (ehtGetBucket t (t.dir.getD idx 0)) := by
          rw [hpre_eq]
          rcases hitems : (ehtGetBucket t (t.dir.getD idx 0)).items with _ | ⟨kv0, rest⟩
          · exact absurd hitems hne
          · have h9 := hroute _ hi kv0 (by rw [hvb, hitems]; exact List.mem_cons_self _ _)
            have h10 := hroute _ hidx kv0 (by rw [hitems]; exact List.mem_cons_self _ _)
            rw [hvb] at h9
            rw [← h9, h10]
        have h11 : i % 2 ^ ((ehtGetBucket t (t.dir.getD idx 0)).depth + 1) =
            ehtSplitPre (ehtGetBucket t (t.dir.getD idx 0)) := by
          by_contra h12
          exact hc ⟨h8, h12⟩
        rw [h6, h11]
      · rw [hbuck_other _ (hids _ hi) hvb] at hkv ⊢
        exact hroute _ hi kv hkv
  · intro b2 hb2
    rcases hmem2 b2 hb2 with h4 | h4 | h4
    · subst h4
      refine ⟨?_, ?_, ?_⟩
      · calc (ehtStayItems (ehtGetBucket t (t.dir.getD idx 0))).length
            ≤ (ehtGetBucket t (t.dir.getD idx 0)).items.length :=
              (List.filter_sublist _).length_le
          _ ≤ (ehtGetBucket t (t.dir.getD idx 0)).cap := hcapA
      · exact hcapB
      · exact hcapC.sublist ((List.filter_sublist _).map Prod.fst)
    · subst h4
      rw [himg_eq]
      refine ⟨?_, rfl, ?_⟩
      · calc (ehtMovedItems (ehtGetBucket t (t.dir.getD idx 0))).length
            ≤ (ehtGetBucket t (t.dir.getD idx 0)).items.length :=
              (List.filter_sublist _).length_le
          _ ≤ t.bucketSize := by rw [← hcapB]; exact hcapA
      · exact hcapC.sublist ((List.filter_sublist _).map Prod.fst)
    · exact hcaps _ h4
  · intro P hB b2 hb2 kv hkv
    rcases hmem2 b2 hb2 with h4 | h4 | h4
    · subst h4
      exact hB _ hbmem kv (hstay_mem kv hkv).1
    · subst h4
      rw [himg_eq] at hkv
      exact hB _ hbmem kv (hmoved_mem kv hkv).1
    · exact hB _ h4 kv hkv
  · rw [hdir2get idx hidx]
    by_cases hc : idx % 2 ^ (ehtGetBucket t (t.dir.getD idx 0)).depth =
        ehtSplitPre (ehtGetBucket t (t.dir.getD idx 0)) ∧
      ¬ idx % 2 ^ ((ehtGetBucket t (t.dir.getD idx 0)).depth + 1) =
        ehtSplitPre (ehtGetBucket t (t.dir.getD idx 0))
    · rw [if_pos hc, hbuck_img, himg_eq]
    · rw [if_neg hc, hbuck_bid]

/-- The measure induction: with enough fuel relative to the measure, the retry
loop reaches a successful insertion. -/
theorem ehtInsertGo_terminates_aux (k v P : Nat) :
    ∀ n t, ehtWF t → ehtKeyBound t P → k < 2 ^ P → ehtMeasure t k P ≤ n →
      ∃ t2, ehtInsertGo (n + 1) t k v = some t2 := by
  intro n
  induction n with
  | zero =>
      intro t hWF hB hk hm
      have hdeep : P < ehtTargetDepth t k := by
        by_contra hcon
        unfold ehtMeasure at hm
        rw [if_neg hcon] at hm
        by_cases h2 : ehtTargetDepth t k = t.globalDepth
        · rw [if_pos h2] at hm
          omega
        · rw [if_neg h2] at hm
          omega
      obtain ⟨t2, ht2⟩ := ehtStep_done_of_deep t k v P hWF hB hk hdeep
      refine ⟨t2, ?_⟩
      unfold ehtInsertGo
      rw [ht2]
  | succ n ih =>
      intro t hWF hB hk hm
      by_cases hdeep : P < ehtTargetDepth t k
      · obtain ⟨t2, ht2⟩ := ehtStep_done_of_deep t k v P hWF hB hk hdeep
        refine ⟨t2, ?_⟩
        unfold ehtInsertGo
        rw [ht2]
      · cases hstep : ehtInsertStep t k v with
        | done t2 =>
            refine ⟨t2, ?_⟩
            unfold ehtInsertGo
            rw [hstep]
        | again t2 =>
            have htle : ehtTargetDepth t k ≤ t.globalDepth := ehtTargetDepth_le t k hWF
            obtain ⟨hfail, hbranch⟩ := ehtInsertStep_again t k v t2 hstep
            have hgo : ehtInsertGo (n + 1 + 1) t k v = ehtInsertGo (n + 1) t2 k v := by
              have h0 : ehtInsertGo (n + 1 + 1) t k v =
                  (match ehtInsertStep t k v with
                   | EHTStep.done t3 => some t3
                   | EHTStep.again t3 => ehtInsertGo (n + 1) t3 k v) := rfl
              rw [h0, hstep]
            rcases hbranch with ⟨hgd, rfl⟩ | ⟨hgd, rfl⟩
            · have hWF2 := eht_double_WF t hWF
              have hB2 : ehtKeyBound
                  { t with globalDepth := t.globalDepth + 1, dir := t.dir ++ t.dir } P := hB
              have htg := eht_double_target t k hWF
              have hm2 : ehtMeasure
                  { t with globalDepth := t.globalDepth + 1, dir := t.dir ++ t.dir } k P ≤ n := by
                unfold ehtMeasure at hm ⊢
                rw [htg]
                dsimp only
                rw [if_neg hdeep] at hm ⊢
                have hgd2 : ehtTargetDepth t k = t.globalDepth := hgd.symm
                rw [if_pos hgd2] at hm
                have hne2 : ¬ ehtTargetDepth t k = t.globalDepth + 1 := by omega
                rw [if_neg hne2]
                omega
              obtain ⟨t3, h3⟩ := ih _ hWF2 hB2 hk hm2
              exact ⟨t3, by rw [hgo]; exact h3⟩
            · have hidx : ehtIndexOf t k < t.dir.length := by
                rw [hWF.2.1]
                exact Nat.mod_lt _ (pow_pos (by norm_num) _)
              have hfull : (ehtGetBucket t (t.dir.getD (ehtIndexOf t k) 0)).isFull = true :=
                (bucketInsert_false hfail).2.1
              have hlt : (ehtGetBucket t (t.dir.getD (ehtIndexOf t k) 0)).depth <
                  t.globalDepth := by
                have h4 : ehtTargetDepth t k =
                    (ehtGetBucket t (t.dir.getD (ehtIndexOf t k) 0)).depth := rfl
                omega
              obtain ⟨hWF2, hBpres, htg2, hgd2, hdlen2⟩ :=
                eht_split_preserve t (ehtIndexOf t k) hWF hidx hfull hlt
              have hidx2 : ehtIndexOf (ehtRedistributeBucket t (t.dir.getD (ehtIndexOf t k) 0)) k
                  = ehtIndexOf t k := by
                show k % 2 ^ (ehtRedistributeBucket t (t.dir.getD (ehtIndexOf t k) 0)).globalDepth
                  = k % 2 ^ t.globalDepth
                rw [hgd2]
              have htg3 : ehtTargetDepth
                  (ehtRedistributeBucket t (t.dir.getD (ehtIndexOf t k) 0)) k =
                  ehtTargetDepth t k + 1 := by
                unfold ehtTargetDepth
                rw [hidx2]
                exact htg2
              have hm2 : ehtMeasure (ehtRedistributeBucket t (t.dir.getD (ehtIndexOf t k) 0))
                  k P ≤ n := by
                unfold ehtMeasure at hm ⊢
                rw [htg3, hgd2]
                rw [if_neg hdeep] at hm
                have hgd3 : ¬ ehtTargetDepth t k = t.globalDepth := by
                  have h4 : ehtTargetDepth t k =
                      (ehtGetBucket t (t.dir.getD (ehtIndexOf t k) 0)).depth := rfl
                  omega
                rw [if_neg hgd3] at hm
                by_cases h5 : P < ehtTargetDepth t k + 1
                · rw [if_pos h5]
                  omega
                · rw [if_neg h5]
                  by_cases h6 : ehtTargetDepth t k + 1 = t.globalDepth
                  · rw [if_pos h6]
                    omega
                  · rw [if_neg h6]
                    omega
              obtain ⟨t3, h3⟩ := ih _ hWF2 (hBpres P hB) hk hm2
              exact ⟨t3, by rw [hgo]; exact h3⟩

theorem exists_itemBound (l : List (Nat × Nat)) : ∃ B, ∀ kv ∈ l, kv.1 ≤ B := by
  induction l with
  | nil => exact ⟨0, by simp⟩
  | cons kv rest ih =>
      obtain ⟨B, hB⟩ := ih
      refine ⟨max kv.1 B, ?_⟩
      intro x hx
      rcases List.mem_cons.mp hx with rfl | hxr
      · exact le_max_left _ _
      · exact le_trans (hB x hxr) (le_max_right _ _)

theorem exists_bucketBound (bs : List Bucket) :
    ∃ B, ∀ b ∈ bs, ∀ kv ∈ b.items, kv.1 ≤ B := by
  induction bs with
  | nil => exact ⟨0, by simp⟩
  | cons b rest ih =>
      obtain ⟨B1, hB1⟩ := ih
      obtain ⟨B2, hB2⟩ := exists_itemBound b.items
      refine ⟨max B2 B1, ?_⟩
      intro b2 hb2 kv hkv
      rcases List.mem_cons.mp hb2 with rfl | hbr
      · exact le_trans (hB2 kv hkv) (le_max_left _ _)
      · exact le_trans (hB1 b2 hbr kv hkv) (le_max_right _ _)

theorem exists_keyBound (t : EHT) (k : Nat) : ∃ P, ehtKeyBound t P ∧ k < 2 ^ P := by
  obtain ⟨B, hB⟩ := exists_bucketBound t.buckets
  refine ⟨max B k, ?_, ?_⟩
  · intro b hb kv hkv
    have h1 : kv.1 ≤ max B k := le_trans (hB b hb kv hkv) (le_max_left _ _)
    have h2 : max B k < 2 ^ max B k := Nat.lt_two_pow _
    omega
  · have h1 : k ≤ max B k := le_max_right _ _
    have h2 : max B k < 2 ^ max B k := Nat.lt_two_pow _
    omega

/-- C2: every iteration of the retry loop of `Insert` that does not succeed
either doubles the directory (incrementing the global depth) or strictly
increases the number of buckets; and from every well-formed table state the
loop reaches a successful insertion with finite fuel. -/
theorem eht_insert_terminates :
    (∀ t k v t2, ehtInsertStep t k v = EHTStep.again t2 →
      (t2.globalDepth = t.globalDepth + 1 ∧ t2.dir.length = 2 * t.dir.length) ∨
        t2.numBuckets = t.numBuckets + 1) ∧
    (∀ t k v, ehtWF t → ∃ fuel t2, ehtInsertGo fuel t k v = some t2) := by
  constructor
  · intro t k v t2 hstep
    obtain ⟨_, hbranch⟩ := ehtInsertStep_again t k v t2 hstep
    rcases hbranch with ⟨_, rfl⟩ | ⟨_, rfl⟩
    · refine Or.inl ⟨rfl, ?_⟩
      show (t.dir ++ t.dir).length = 2 * t.dir.length
      simp only [List.length_append]
      ring
    · exact Or.inr rfl
  · intro t k v hWF
    obtain ⟨P, hB, hk⟩ := exists_keyBound t k
    obtain ⟨t2, h2⟩ := ehtInsertGo_terminates_aux k v P (ehtMeasure t k P) t hWF hB hk le_rfl
    exact ⟨ehtMeasure t k P + 1, t2, h2⟩

/-- The constructor's state is well-formed for any positive bucket capacity. -/
theorem ehtWF_init (n : Nat) (h : 0 < n) : ehtWF (ehtInit n) := by
  refine ⟨h, rfl, ?_, ?_, ?_, ?_⟩
  · intro i hi
    have h1 : i < 1 := hi
    have h2 : i = 0 := by omega
    subst h2
    exact Nat.zero_lt_one
  · intro i hi
    have h1 : i < 1 := hi
    have h2 : i = 0 := by omega
    subst h2
    exact Nat.le_refl _
  · intro i hi kv hkv
    have h1 : kv ∈ ([] : List (Nat × Nat)) := by
      have h2 : i < 1 := hi
      have h3 : i = 0 := by omega
      subst h3
      exact hkv
    simp at h1
  · intro b hb
    have h1 : b = ⟨[], 0, n⟩ := by
      have h2 : b ∈ [(⟨[], 0, n⟩ : Bucket)] := hb
      simpa using h2
    subst h1
    exact ⟨by simp, rfl, by simp⟩

/-- A one-slot table with a full bucket of capacity 1 holding key 0: inserting
key 1 fails and, with local depth equal to global depth, doubles the directory. -/
def c2Table : EHT := ⟨0, 1, 1, [⟨[(0, 9)], 0, 1⟩], [0]⟩

/-- C2 witness: the concrete doubling step raises the global depth, and the
retry loop terminates from the concrete well-formed initial table. -/
theorem eht_insert_terminates_witness :
    (((⟨1, 1, 1, [⟨[(0, 9)], 0, 1⟩], [0, 0]⟩ : EHT).globalDepth = c2Table.globalDepth + 1 ∧
      (⟨1, 1, 1, [⟨[(0, 9)], 0, 1⟩], [0, 0]⟩ : EHT).dir.length = 2 * c2Table.dir.length) ∨
    (⟨1, 1, 1, [⟨[(0, 9)], 0, 1⟩], [0, 0]⟩ : EHT).numBuckets = c2Table.numBuckets + 1) ∧
    (∃ fuel t2, ehtInsertGo fuel (ehtInit 2) 3 7 = some t2) :=
  ⟨eht_insert_terminates.1 c2Table 1 5 ⟨1, 1, 1, [⟨[(0, 9)], 0, 1⟩], [0, 0]⟩ (by decide),
   eht_insert_terminates.2 (ehtInit 2) 3 7 (ehtWF_init 2 (by norm_num))⟩

/-! ## B+ tree index (b_plus_tree.cpp, b_plus_tree_internal_page.cpp)

The embedding follows the later revision of `b_plus_tree.cpp` in the
repository (the one taking the `root_page_id_latch_`).  Pages live in a store
keyed by page id together with a pin-count map mirroring the buffer pool's
pin counts: `FetchPage`/`NewPage` increment a page's pin count, `UnpinPage`
decrements it when positive.  The `is_dirty` argument of `UnpinPage` does not
affect pin counts and is not tracked here.  Keys are `Nat` (the generic
comparator on integer keys), values are `Nat` record ids, page ids are `Int`
with `INVALID_PAGE_ID = -1` and header page id 0. -/

inductive TreePage where
  | leafPage (kvs : List (Nat × Nat)) (next : Int) (parent : Int) (maxSize : Nat)
  | internalPage (ents : List (Nat × Int)) (parent : Int) (maxSize : Nat)
deriving DecidableEq, Repr

def pageParent : TreePage → Int
  | .leafPage _ _ par _ => par
  | .internalPage _ par _ => par

def setParent : TreePage → Int → TreePage
  | .leafPage kvs nx _ mx, p => .leafPage kvs nx p mx
  | .internalPage ents _ mx, p => .internalPage ents p mx

def assocSet {α : Type} (l : List (Int × α)) (k : Int) (v : α) : List (Int × α) :=
  match l with
  | [] => [(k, v)]
  | (k0, v0) :: rest => if k0 = k then (k, v) :: rest else (k0, v0) :: assocSet rest k v

structure TreeStore where
  pages : List (Int × TreePage)
  pins : List (Int × Nat)
  headerRoot : Int
  nextPage : Int
deriving DecidableEq, Repr

def pinsBump (p : List (Int × Nat)) (pid : Int) : List (Int × Nat) :=
  assocSet p pid ((p.lookup pid).getD 0 + 1)

def pinsDec (p : List (Int × Nat)) (pid : Int) : List (Int × Nat) :=
  match p.lookup pid with
  | none => p
  | some n => if n = 0 then p else assocSet p pid (n - 1)

def pinOf (s : TreeStore) (pid : Int) : Nat := (s.pins.lookup pid).getD 0

/-- `FetchPage`: pin the frame (the page content is read through the returned
pointer, modelled by a separate `lookup`). -/
def storeFetch (s : TreeStore) (pid : Int) : TreeStore :=
  { s with pins := pinsBump s.pins pid }

/-- `UnpinPage`: decrement the pin count when positive. -/
def storeUnpin (s : TreeStore) (pid : Int) : TreeStore :=
  { s with pins := pinsDec s.pins pid }

/-- Mutation of a pinned page through its `Page*`. -/
def storeWrite (s : TreeStore) (pid : Int) (pg : TreePage) : TreeStore :=
  { s with pages := assocSet s.pages pid pg }

/-- `NewPage`: allocate the next page id with pin count 1. -/
def storeNew (s : TreeStore) : Int × TreeStore :=
  (s.nextPage, { s with nextPage := s.nextPage + 1, pins := pinsBump s.pins s.nextPage })

/-- `UpdateRootPageId`: fetch the header page (id 0), insert or update the
`(index_name, root_page_id)` record, unpin it. -/
def headerUpdate (s : TreeStore) (rootId : Int) : TreeStore :=
  { s with pins := pinsDec (pinsBump s.pins 0) 0, headerRoot := rootId }

/-- Modelled from the spec: `B_PLUS_TREE_LEAF_PAGE_TYPE::LookUp` (the leaf
page source is not in src): binary search for the key among the sorted pairs. -/
def leafLookUp (kvs : List (Nat × Nat)) (k : Nat) : Option Nat :=
  match kvs with
  | [] => none
  | (k0, v0) :: rest => if k0 = k then some v0 else leafLookUp rest k

/-- Modelled from the spec: `B_PLUS_TREE_LEAF_PAGE_TYPE::Insert` (leaf page
source not in src): insert in key order, unchanged when the key exists; the
caller compares the sizes before and after. -/
def leafInsertKVs (kvs : List (Nat × Nat)) (k v : Nat) : List (Nat × Nat) :=
  match kvs with
  | [] => [(k, v)]
  | (k0, v0) :: rest =>
      if k < k0 then (k, v) :: (k0, v0) :: rest
      else if k = k0 then (k0, v0) :: rest
      else (k0, v0) :: leafInsertKVs rest k v

/-- Index of the first entry whose key is not below `k` (the `lower_bound`
over the separator slots), else the number of entries scanned. -/
def lbAux (l : List (Nat × Int)) (k : Nat) : Nat :=
  match l with
  | [] => 0
  | e :: rest => if e.1 < k then lbAux rest k + 1 else 0

/-- `B_PLUS_TREE_INTERNAL_PAGE_TYPE::LookUp`: `lower_bound` over slots
`1..size`; at the end take the last child, on an exact separator match take
its child, otherwise the previous slot's child. -/
def internalLookUp (ents : List (Nat × Int)) (k : Nat) : Int :=
  let i := lbAux (ents.drop 1) k + 1
  if i = ents.length then (ents.getD (ents.length - 1) (0, -1)).2
  else if (ents.getD i (0, -1)).1 = k then (ents.getD i (0, -1)).2
  else (ents.getD (i - 1) (0, -1)).2

/-- `B_PLUS_TREE_INTERNAL_PAGE_TYPE::ValueIndex`: position of the child id. -/
def valueIndex (ents : List (Nat × Int)) (pid : Int) : Nat :=
  match ents with
  | [] => 0
  | e :: rest => if e.2 = pid then 0 else valueIndex rest pid + 1

def insertAt {α : Type} (l : List α) (i : Nat) (x : α) : List α :=
  l.take i ++ [x] ++ l.drop i

/-- `B_PLUS_TREE_INTERNAL_PAGE_TYPE::InsertNodeAfter`: place `(key, new)` just
after the slot holding the old child. -/
def insertNodeAfter (ents : List (Nat × Int)) (key : Nat) (newId oldId : Int) :
    List (Nat × Int) :=
  insertAt ents (valueIndex ents oldId + 1) (key, newId)

/-- `B_PLUS_TREE_INTERNAL_PAGE_TYPE::CopyData`'s re-parenting loop: each moved
child is fetched, its `parent_page_id` rewritten, and unpinned dirty. -/
def reparentChildren (s : TreeStore) (moved : List (Nat × Int)) (npId : Int) : TreeStore :=
  moved.foldl (fun st e =>
    let st1 := storeFetch st e.2
    let st2 := match st1.pages.lookup e.2 with
      | some pg => storeWrite st1 e.2 (setParent pg npId)
      | none => st1
    storeUnpin st2 e.2) s

structure BPTree where
  rootPageId : Int
  leafMaxSize : Nat
  internalMaxSize : Nat
  store : TreeStore
deriving DecidableEq, Repr

/-- `BPLUSTREE_TYPE::FindLeaf`: descend from the root, fetching (pinning)
every page on the path without unpinning any of them; returns the store with
all path pins taken, the leaf's page id and the leaf page.  Fuel bounds the
descent; `none` also models a fetch of a page id absent from the store. -/
def findLeafGo : Nat → TreeStore → Int → Nat → Option (TreeStore × Int × TreePage)
  | 0, _, _, _ => none
  | fuel + 1, s, pid, k =>
      match s.pages.lookup pid with
      | none => none
      | some (.leafPage kvs nx par mx) =>
          some (storeFetch s pid, pid, .leafPage kvs nx par mx)
      | some (.internalPage ents _ _) =>
          findLeafGo fuel (storeFetch s pid) (internalLookUp ents k) k

/-- `BPLUSTREE_TYPE::GetValue` of the later revision: `FindLeaf`, leaf
`LookUp`, then `UnpinPage(leaf, false)` — only the leaf is unpinned; the
internal pages fetched by `FindLeaf` stay pinned. -/
def bptGetValue (fuel : Nat) (T : BPTree) (k : Nat) : Option (Option Nat × TreeStore) :=
  match findLeafGo fuel T.store T.rootPageId k with
  | none => none
  | some (s1, leafId, .leafPage kvs _ _ _) =>
      some (leafLookUp kvs k, storeUnpin s1 leafId)
  | some (_, _, .internalPage ..) => none

/-- `BPLUSTREE_TYPE::InsertToParent` of the later revision.  The root case
builds a fresh internal root `[slot0 = old, (split_key, new)]` of size 2,
re-parents both children, performs the two stray debug `FetchPage(6)` calls
(never unpinned), updates the header record and unpins the new root.  The
non-root case fetches the parent, inserts after the old child, and when the
parent was already at `internal_max_size_` splits it (re-parenting the moved
children) and recurses. -/
def insertToParent : Nat → BPTree → Int → Int → Nat → Option BPTree
  | 0, _, _, _, _ => none
  | fuel + 1, T, oldId, newId, splitKey =>
      match T.store.pages.lookup oldId, T.store.pages.lookup newId with
      | some oldPg, some newPg =>
          if pageParent oldPg = -1 then
            let (rootId, s1) := storeNew T.store
            let root := TreePage.internalPage [(0, oldId), (splitKey, newId)] (-1)
              T.internalMaxSize
            let s2 := storeWrite s1 rootId root
            let s3 := storeWrite s2 oldId (setParent oldPg rootId)
            let s4 := storeWrite s3 newId (setParent newPg rootId)
            let s5 := storeFetch s4 6
            let s6 := headerUpdate s5 rootId
            let s7 := storeFetch s6 6
            some { T with rootPageId := rootId, store := storeUnpin s7 rootId }
          else
            match T.store.pages.lookup (pageParent oldPg) with
            | some (.internalPage ents ppar pmax) =>
                let parentId := pageParent oldPg
                let s1 := storeFetch T.store parentId
                if ents.length < T.internalMaxSize then
                  let ents2 := insertNodeAfter ents splitKey newId oldId
                  some { T with store :=
                    (storeUnpin
                      (storeWrite s1 parentId (TreePage.internalPage ents2 ppar pmax))
                      parentId) }
                else
                  let ents2 := insertNodeAfter ents splitKey newId oldId
                  let s2 := storeWrite s1 parentId (TreePage.internalPage ents2 ppar pmax)
                  let (npId, s3) := storeNew s2
                  let pmin := (T.internalMaxSize + 1) / 2
                  let keep := ents2.take pmin
                  let moved := ents2.drop pmin
                  let s4 := storeWrite
                    (storeWrite s3 parentId (TreePage.internalPage keep ppar pmax)) npId
                    (TreePage.internalPage moved ppar T.internalMaxSize)
                  let s5 := reparentChildren s4 moved npId
                  match insertToParent fuel { T with store := s5 } parentId npId
                    (moved.headD (0, 0)).1 with
                  | none => none
                  | some T2 =>
                      some { T2 with store :=
                        (storeUnpin (storeUnpin T2.store parentId) npId) }
            | _ => none
      | _, _ => none

/-- `BPLUSTREE_TYPE::Insert` of the later revision.  Empty tree: new root
leaf, record the root id, return `true`.  Duplicate key (leaf size
unchanged): unpin, return `false`.  Fit without overflow: unpin, return
`true`.  Overflow: split the leaf (`GetMinSize` per the spec is `⌈max/2⌉`;
the page-header source is not in src), link the sibling chain, propagate the
new leaf's first key via `InsertToParent`, unpin both leaves — and return
`false` even though the key was inserted. -/
def bptInsert (fuel : Nat) (T : BPTree) (k v : Nat) : Option (Bool × BPTree) :=
  if T.rootPageId = -1 then
    let (pid, s1) := storeNew T.store
    let leaf := TreePage.leafPage (leafInsertKVs [] k v) (-1) (-1) T.leafMaxSize
    let s2 := storeWrite s1 pid leaf
    let s3 := storeUnpin s2 pid
    let s4 := headerUpdate s3 pid
    some (true, { T with rootPageId := pid, store := s4 })
  else
    match findLeafGo fuel T.store T.rootPageId k with
    | none => none
    | some (_, _, .internalPage ..) => none
    | some (s1, leafId, .leafPage kvs nx par mx) =>
        let oldSize := kvs.length
        let kvs2 := leafInsertKVs kvs k v
        if kvs2.length = oldSize then
          some (false, { T with store := storeUnpin s1 leafId })
        else if kvs2.length ≤ T.leafMaxSize then
          some (true, { T with store :=
            (storeUnpin (storeWrite s1 leafId (TreePage.leafPage kvs2 nx par mx)) leafId) })
        else
          let s2 := storeWrite s1 leafId (TreePage.leafPage kvs2 nx par mx)
          let (newId, s3) := storeNew s2
          let minSize := (T.leafMaxSize + 1) / 2
          let keep := kvs2.take minSize
          let moved := kvs2.drop minSize
          let s4 := storeWrite (storeWrite s3 newId (TreePage.leafPage moved nx par T.leafMaxSize))
            leafId (TreePage.leafPage keep newId par T.leafMaxSize)
          match insertToParent fuel { T with store := s4 } leafId newId
            (moved.headD (0, 0)).1 with
          | none => none
          | some T2 =>
              some (false, { T2 with store :=
                (storeUnpin (storeUnpin T2.store leafId) newId) })

/-- A tree whose root (page 1) is a leaf holding keys 1 and 2 with
`leaf_max_size = 2`: the next insertion overflows it. -/
def c3Tree : BPTree :=
  { rootPageId := 1,
    leafMaxSize := 2,
    internalMaxSize := 3,
    store := { pages := [(1, .leafPage [(1, 10), (2, 20)] (-1) (-1) 2)],
               pins := [], headerRoot := 1, nextPage := 2 } }

/-- A tree of height 2: internal root (page 1) over leaves 2 and 3. -/
def c4Tree : BPTree :=
  { rootPageId := 1,
    leafMaxSize := 2,
    internalMaxSize := 3,
    store := { pages := [(1, .internalPage [(0, 2), (5, 3)] (-1) 3),
                         (2, .leafPage [(1, 10), (2, 20)] 3 1 2),
                         (3, .leafPage [(5, 50)] (-1) 1 2)],
               pins := [], headerRoot := 1, nextPage := 4 } }

/-- C3: inserting the absent key 3 into the full root leaf `[1, 2]`
(`leaf_max_size = 2`) triggers a split and the split path returns `false`,
although the key was not present (and is in fact stored by the split),
contradicting the claim — and the function's own doc comment — that a
non-duplicate insertion returns `true`. -/
theorem bpt_insert_split_returns_false :
    (bptInsert 5 c3Tree 3 30).map (fun r => r.1) = some false ∧
    leafLookUp [(1, 10), (2, 20)] 3 = none ∧
    (bptInsert 5 c3Tree 3 30).map
      (fun r => (r.2.store.pages.lookup 2).map (fun pg =>
        match pg with
        | TreePage.leafPage kvs _ _ _ => leafLookUp kvs 3
        | TreePage.internalPage .. => none)) = some (some (some 30)) := by
  refine ⟨?_, rfl, ?_⟩
  · rfl
  · rfl

/-- C4: a point query on a tree of height 2 returns its value but leaves the
root page's pin count at 1 instead of restoring it to 0 — `FindLeaf` fetches
the root and every internal node without unpinning and `GetValue` unpins only
the leaf, contradicting the claim that the search path's pin counts are
restored. -/
theorem bpt_getvalue_leaks_internal_pins :
    (bptGetValue 5 c4Tree 1).map (fun r => (r.1, pinOf r.2 1, pinOf r.2 2)) =
      some (some 10, 1, 0) ∧
    pinOf c4Tree.store 1 = 0 ∧
    ¬ ((bptGetValue 5 c4Tree 1).map (fun r => pinOf r.2 1) =
        some (pinOf c4Tree.store 1)) := by
  refine ⟨rfl, rfl, ?_⟩
  decide

/-! ## Insert and Delete executors (insert_executor.cpp, delete_executor.cpp)

The child stream is a list of rows; each row carries the outcome of the
external heap-table call (`TableHeap::InsertTuple` resp. `TableHeap::MarkDelete`)
for that row, since the heap table is an external collaborator.  A row is
abstracted to the `Nat` that `KeyFromTuple` extracts from it; the result is the
count reported in the executor's single output tuple together with the list of
`(index_oid, key)` entries passed to the per-index `InsertEntry`/`DeleteEntry`. -/

/-- The drain loop of `InsertExecutor::Next`: index entries are inserted only
when `InsertTuple` succeeded, but `count++` sits outside that test. -/
def insertExecNext (rows : List (Nat × Bool)) (indexes : List Nat) :
    Nat × List (Nat × Nat) :=
  match rows with
  | [] => (0, [])
  | (t, ok) :: rest =>
      let r := insertExecNext rest indexes
      ((r.1 + 1), (if ok then indexes.map (fun i => (i, t)) else []) ++ r.2)

/-- The drain loop of `DeleteExecutor::Next`: both the index maintenance and
`count++` sit inside the `MarkDelete` success test. -/
def deleteExecNext (rows : List (Nat × Bool)) (indexes : List Nat) :
    Nat × List (Nat × Nat) :=
  match rows with
  | [] => (0, [])
  | (t, ok) :: rest =>
      let r := deleteExecNext rest indexes
      if ok then ((r.1 + 1), indexes.map (fun i => (i, t)) ++ r.2) else r

/-- C10: the count reported by InsertExecutor equals the total number of rows
drained from the child, heap-insert failures included, and failed rows
contribute no index entries; DeleteExecutor reports only the rows for which
MarkDelete succeeded. -/
theorem insert_counts_all_delete_counts_success (rows : List (Nat × Bool))
    (indexes : List Nat) :
    (insertExecNext rows indexes).1 = rows.length ∧
    (insertExecNext rows indexes).2 =
      (rows.filter (fun r => r.2)).flatMap (fun r => indexes.map (fun i => (i, r.1))) ∧
    (deleteExecNext rows indexes).1 = (rows.filter (fun r => r.2)).length := by
  induction rows with
  | nil => exact ⟨rfl, rfl, rfl⟩
  | cons hd tl ih =>
      obtain ⟨t, ok⟩ := hd
      refine ⟨?_, ?_, ?_⟩
      · simp [insertExecNext, ih.1]
      · cases ok <;> simp [insertExecNext, ih.2.1, List.filter]
      · cases ok <;> simp [deleteExecNext, ih.2.2, List.filter]

/-! ## Nested index join executor (nested_index_join_executor.cpp) -/

inductive JoinType where
  | inner
  | left
deriving DecidableEq, Repr

/-- The pull loop of `NestIndexJoinExecutor::Next`.  `probe` models
`BPlusTreeIndex::ScanKey` (the record ids matching a key), `heap` models
`TableHeap::GetTuple`, `keyf` the key-predicate evaluation on a left row.
Result: `some (some (tuple, rest))` when a join tuple is emitted with the
remaining child rows, `some none` when the child is exhausted (`Next` returns
false), and `none` when the code dereferences `rids[0]` of an empty record-id
vector (the LEFT-join miss path), which is an out-of-bounds access with no
defined result. -/
def nijNext (probe : Int → List Nat) (heap : Nat → List Int) (jt : JoinType)
    (keyf : List Int → Int) :
    List (List Int) → Option (Option (List Int × List (List Int)))
  | [] => some none
  | lt :: rest =>
      match probe (keyf lt) with
      | r0 :: _ => some (some (lt ++ heap r0, rest))
      | [] =>
          if jt = JoinType.left then none
          else nijNext probe heap jt keyf rest

/-- An index probe that misses every key, and an empty heap. -/
def c5Probe : Int → List Nat := fun _ => []

def c5Heap : Nat → List Int := fun _ => []

/-- C5: on a left row whose index probe returns no record id, the LEFT-join
path of `NestIndexJoinExecutor::Next` executes `GetTuple(rids[0], ...)` on the
empty rid vector before building the NULL-padded tuple: the modelled execution
reaches the out-of-bounds marker instead of a defined emission, contradicting
the claim that no heap fetch touches the empty record-id list. -/
theorem nij_left_miss_out_of_bounds :
    nijNext c5Probe c5Heap JoinType.left (fun l => l.headD 0) [[7]] = none ∧
    nijNext c5Probe c5Heap JoinType.inner (fun l => l.headD 0) [[7]] = some none := by
  exact ⟨rfl, rfl⟩

/-! ## Sort + Limit to Top-N optimizer rewrite (sort_limit_as_topn.cpp)

The plan language keeps the node kinds the rule inspects, each carrying its
`output_schema_` (abstracted to a `Nat` tag).  A plan evaluates to the list of
produced rows, a row being one `Int` sort key. -/

inductive PlanNode where
  | scan (schema : Nat) (rows : List Int)
  | limit (schema : Nat) (n : Nat) (child : PlanNode)
  | sort (schema : Nat) (desc : Bool) (child : PlanNode)
  | topn (schema : Nat) (desc : Bool) (n : Nat) (child : PlanNode)
deriving DecidableEq, Repr

/-- Row comparison under one `order_by` direction. -/
def rowLe (desc : Bool) (a b : Int) : Bool :=
  if desc then decide (b ≤ a) else decide (a ≤ b)

def insertRow (desc : Bool) (a : Int) : List Int → List Int
  | [] => [a]
  | b :: rest => if rowLe desc a b then a :: b :: rest else b :: insertRow desc a rest

/-- The stable sort performed by the Sort executor over its materialized child. -/
def sortRows (desc : Bool) : List Int → List Int
  | [] => []
  | a :: rest => insertRow desc a (sortRows desc rest)

def outSchema : PlanNode → Nat
  | .scan s _ => s
  | .limit s _ _ => s
  | .sort s _ _ => s
  | .topn s _ _ _ => s

/-- Plan evaluation.  The `topn` case is modelled from the spec: the TopN
executor is not among the source files, and the spec defines
`TopN(order_by, k)` as producing the first `k` tuples of the `order_by`-sorted
child output. -/
def evalPlan : PlanNode → List Int
  | .scan _ rows => rows
  | .limit _ n c => (evalPlan c).take n
  | .sort _ d c => sortRows d (evalPlan c)
  | .topn _ d n c => (sortRows d (evalPlan c)).take n

/-- The decision `OptimizeSortLimitAsTopN` takes at a `Limit` node after its
child has been rewritten: a `Sort` child collapses into a `TopN` carrying the
limit's output schema, any other child stays under the `Limit`. -/
def limitCombine (s n : Nat) (c2 : PlanNode) : PlanNode :=
  match c2 with
  | .sort _ d cc => .topn s d n cc
  | c2 => .limit s n c2

/-- `Optimizer::OptimizeSortLimitAsTopN`: children are rewritten first; a
`Limit` whose (rewritten) only child is a `Sort` becomes a `TopN` over the
sort's child, carrying the limit's output schema, its limit and the sort's
order-bys. -/
def optimizeSortLimitAsTopN : PlanNode → PlanNode
  | .scan s rows => .scan s rows
  | .sort s d c => .sort s d (optimizeSortLimitAsTopN c)
  | .topn s d n c => .topn s d n (optimizeSortLimitAsTopN c)
  | .limit s n c => limitCombine s n (optimizeSortLimitAsTopN c)

/-- Whatever shape the rewritten child takes, the rewritten `limit` node still
evaluates to the first `n` rows of the rewritten child's output. -/
theorem evalPlan_limitCombine (s n : Nat) (c2 : PlanNode) :
    evalPlan (limitCombine s n c2) = (evalPlan c2).take n := by
  cases c2 <;> simp [limitCombine, evalPlan]

/-- The rewritten `limit` node keeps the limit's output schema. -/
theorem outSchema_limitCombine (s n : Nat) (c2 : PlanNode) :
    outSchema (limitCombine s n c2) = s := by
  cases c2 <;> rfl

/-- C9: the rewrite turns every `Limit(k)` over `Sort(order_by)` into
`TopN(order_by, k)` over the sort's child keeping the limit's output schema,
and the rewritten plan produces the same rows as the original on every input. -/
theorem sort_limit_as_topn_preserves_output (p : PlanNode) :
    evalPlan (optimizeSortLimitAsTopN p) = evalPlan p ∧
    outSchema (optimizeSortLimitAsTopN p) = outSchema p ∧
    (∀ s n s2 d c, optimizeSortLimitAsTopN (.limit s n (.sort s2 d c)) =
      .topn s d n (optimizeSortLimitAsTopN c)) := by
  have hstruct : ∀ s n s2 d c, optimizeSortLimitAsTopN (.limit s n (.sort s2 d c)) =
      .topn s d n (optimizeSortLimitAsTopN c) := by
    intro s n s2 d c
    rfl
  refine ⟨?_, ?_, hstruct⟩
  · induction p with
    | scan s rows => rfl
    | sort s d c ih => simp [optimizeSortLimitAsTopN, evalPlan, ih]
    | topn s d n c ih => simp [optimizeSortLimitAsTopN, evalPlan, ih]
    | limit s n c ih =>
        rw [optimizeSortLimitAsTopN, evalPlan_limitCombine, ih]; rfl
  · induction p with
    | scan s rows => rfl
    | sort s d c ih => rfl
    | topn s d n c ih => rfl
    | limit s n c ih =>
        rw [optimizeSortLimitAsTopN, outSchema_limitCombine]; rfl

end BusTub
